import Mathlib

/-!
Verification of the FeasAI core (src/core/llm_service.py and src/core/utils.py)
against its natural-language specification.

The Python code is shallowly embedded: strings are Lean `String`s (lists of
characters), `None`-returning functions return `Option`, and dictionaries
returned by `json.loads` become the inductive value type `JVal`.  Recursive
descent parsing uses an explicit fuel parameter that is always large enough
(at least one character of the input is consumed per unit of fuel spent,
and the fuel supplied is more than twice the input length), so the fuel
never runs out on inputs the Python parser accepts.
-/

/-- Left brace character, written through its code point. -/
def lbraceC : Char := Char.ofNat 123

/-- Right brace character, written through its code point. -/
def rbraceC : Char := Char.ofNat 125

/-- JSON whitespace accepted between tokens by the Python json scanner:
space, tab, line feed and carriage return. -/
def isJsonWsB (c : Char) : Bool :=
  c == ' ' || c == '\t' || c == '\n' || c == '\r'

/-- Code points of the characters removed by the Python method str.strip
(the Unicode whitespace set used by str.isspace). -/
def pyWsCodes : List Nat :=
  [9, 10, 11, 12, 13, 28, 29, 30, 31, 32, 133, 160, 5760,
   8192, 8193, 8194, 8195, 8196, 8197, 8198, 8199, 8200, 8201, 8202,
   8232, 8233, 8239, 8287, 12288]

/-- Whether str.strip removes the character `c`. -/
def isPyWsB (c : Char) : Bool := pyWsCodes.contains c.toNat

/-- Skip JSON whitespace, as the scanner does between tokens. -/
def skipWs (l : List Char) : List Char := l.dropWhile isJsonWsB

/-- List form of str.strip: drop Python whitespace from both ends. -/
def pyStripList (l : List Char) : List Char :=
  ((l.dropWhile isPyWsB).reverse.dropWhile isPyWsB).reverse

/-- The Python method str.strip. -/
def pyStrip (s : String) : String := String.mk (pyStripList s.toList)

/-- A number produced by json.loads: an int, a float (kept as its source
lexeme, since no arithmetic is ever performed on it), or one of the three
non-finite constants the Python decoder accepts. -/
inductive PyNum where
  | int (n : Int)
  | float (lex : String)
  | nan
  | inf
  | ninf

/-- A value produced by json.loads. Objects keep their key/value pairs in
source order, as an association list. -/
inductive JVal where
  | null
  | bool (b : Bool)
  | num (n : PyNum)
  | str (s : String)
  | arr (xs : List JVal)
  | obj (kvs : List (String × JVal))

/-- Value of a hexadecimal digit, as accepted in a \u escape. -/
def hexVal (c : Char) : Option Nat :=
  if c.isDigit then some (c.toNat - 48)
  else if 'a' ≤ c && c ≤ 'f' then some (c.toNat - 87)
  else if 'A' ≤ c && c ≤ 'F' then some (c.toNat - 70)
  else none

/-- Value of a four-digit hexadecimal escape. -/
def hex4 (a b c d : Char) : Option Nat :=
  match hexVal a, hexVal b, hexVal c, hexVal d with
  | some x, some y, some z, some w => some (((x * 16 + y) * 16 + z) * 16 + w)
  | _, _, _, _ => none

/-- Single-character escapes accepted after a backslash in a JSON string. -/
def escMap (c : Char) : Option Char :=
  match c with
  | '"' => some '"'
  | '\\' => some '\\'
  | '/' => some '/'
  | 'b' => some (Char.ofNat 8)
  | 'f' => some (Char.ofNat 12)
  | 'n' => some '\n'
  | 'r' => some '\r'
  | 't' => some '\t'
  | _ => none

/-- The astral code point produced by joining a high surrogate `n` with a low
surrogate `m`. -/
def pairChar (n m : Nat) : Char :=
  Char.ofNat (65536 + (n - 55296) * 1024 + (m - 56320))

/-- Lookahead step of the decoder after an escaped high surrogate `n`: if the
remaining text starts with another \u escape holding a low surrogate, join
the two into one character and continue after both escapes; otherwise keep
the lone code unit (mapped through Char.ofNat) and continue at the same
position.  The continuation `psb` is the string-body parser itself. -/
def surrogatePair (psb : List Char → Option (List Char × List Char)) (n : Nat)
    (u : List Char) : Option (List Char × List Char) :=
  match u with
  | '\\' :: 'u' :: a₂ :: b₂ :: c₄ :: d₂ :: t₄ =>
    match hex4 a₂ b₂ c₄ d₂ with
    | some m =>
      if 56320 ≤ m && m < 57344 then
        (psb t₄).map (fun p => (pairChar n m :: p.1, p.2))
      else
        (psb u).map (fun p => (Char.ofNat n :: p.1, p.2))
    | none => (psb u).map (fun p => (Char.ofNat n :: p.1, p.2))
  | _ => (psb u).map (fun p => (Char.ofNat n :: p.1, p.2))

/-- Body of a JSON string after the opening quote: returns the decoded
characters and the input after the closing quote.  Control characters below
0x20 are rejected (strict mode); \u escapes decode a code unit, joining a
high surrogate with an immediately following escaped low surrogate the way
the Python decoder does. -/
def parseStringBody (fuel : Nat) (l : List Char) : Option (List Char × List Char) :=
  match fuel with
  | 0 => none
  | fuel + 1 =>
    match l with
    | [] => none
    | c :: t =>
      if c == '"' then some ([], t)
      else if c == '\\' then
        match t with
        | [] => none
        | e :: t₂ =>
          if e == 'u' then
            match t₂ with
            | a :: b :: c₃ :: d :: t₃ =>
              match hex4 a b c₃ d with
              | none => none
              | some n =>
                if 55296 ≤ n && n < 56320 then
                  surrogatePair (parseStringBody fuel) n t₃
                else
                  (parseStringBody fuel t₃).map (fun p => (Char.ofNat n :: p.1, p.2))
            | _ => none
          else
            match escMap e with
            | some d => (parseStringBody fuel t₂).map (fun p => (d :: p.1, p.2))
            | none => none
      else if c.toNat < 32 then none
      else (parseStringBody fuel t).map (fun p => (c :: p.1, p.2))

/-- Numeric value of a list of decimal digits. -/
def digitsToNat (ds : List Char) : Nat :=
  ds.foldl (fun a c => 10 * a + (c.toNat - 48)) 0

/-- Integer part of the number grammar `0|[1-9][0-9]*`: a leading zero is
taken alone, otherwise a maximal run of digits. -/
def parseIntPart : List Char → Option (List Char × List Char)
  | [] => none
  | c :: t =>
    if c == '0' then some (['0'], t)
    else if c.isDigit then some (c :: t.takeWhile Char.isDigit, t.dropWhile Char.isDigit)
    else none

/-- Optional fraction group `\.[0-9]+`; like the regex group it matches either
completely or not at all (a bare dot is left unconsumed). -/
def parseFracPart (l : List Char) : List Char × List Char :=
  match l with
  | '.' :: t =>
    let ds := t.takeWhile Char.isDigit
    if ds.isEmpty then ([], l) else ('.' :: ds, t.dropWhile Char.isDigit)
  | _ => ([], l)

/-- Optional exponent group `[eE][-+]?[0-9]+`, again all-or-nothing. -/
def parseExpPart (l : List Char) : List Char × List Char :=
  match l with
  | [] => ([], [])
  | e :: t =>
    if e == 'e' || e == 'E' then
      match t with
      | [] => ([], l)
      | s :: t₂ =>
        if s == '+' || s == '-' then
          let ds := t₂.takeWhile Char.isDigit
          if ds.isEmpty then ([], l) else (e :: s :: ds, t₂.dropWhile Char.isDigit)
        else
          let ds := t.takeWhile Char.isDigit
          if ds.isEmpty then ([], l) else (e :: ds, t.dropWhile Char.isDigit)
    else ([], l)

/-- Everything of the number production after the optional minus sign:
integer part, optional fraction, optional exponent; the value is an integer
when only the integer part matched, else a float kept as its lexeme. -/
def numAfterSign (neg : Bool) (l₁ : List Char) : Option (PyNum × List Char) :=
  match parseIntPart l₁ with
  | none => none
  | some (ids, r₁) =>
    let fr := parseFracPart r₁
    let ex := parseExpPart fr.2
    if fr.1.isEmpty && ex.1.isEmpty then
      if neg then some (PyNum.int (-(digitsToNat ids : Int)), ex.2)
      else some (PyNum.int (digitsToNat ids : Int), ex.2)
    else
      if neg then some (PyNum.float (String.mk ('-' :: ids ++ fr.1 ++ ex.1)), ex.2)
      else some (PyNum.float (String.mk (ids ++ fr.1 ++ ex.1)), ex.2)

/-- The number production of the Python json scanner (regex
`(-?(?:0|[1-9][0-9]*))(\.[0-9]+)?([eE][-+]?[0-9]+)?`). -/
def parseNumber (l : List Char) : Option (PyNum × List Char) :=
  match l with
  | '-' :: t => numAfterSign true t
  | _ => numAfterSign false l

mutual

/-- One JSON value, dispatched on its first character exactly like the Python
scanner: string, object, array, the literals null/true/false/NaN/Infinity/
-Infinity, and otherwise the number production. -/
def parseVal (fuel : Nat) (l : List Char) : Option (JVal × List Char) :=
  match fuel with
  | 0 => none
  | fuel + 1 =>
    match l with
    | [] => none
    | ch :: t =>
      if ch == '"' then
        (parseStringBody (t.length + 1) t).map (fun p => (JVal.str (String.mk p.1), p.2))
      else if ch == lbraceC then
        match skipWs t with
        | [] => none
        | u0 :: urest =>
          if u0 == rbraceC then some (JVal.obj [], urest)
          else (parseMembers fuel (u0 :: urest)).map (fun p => (JVal.obj p.1, p.2))
      else if ch == '[' then
        match skipWs t with
        | [] => none
        | u0 :: urest =>
          if u0 == ']' then some (JVal.arr [], urest)
          else (parseElems fuel (u0 :: urest)).map (fun p => (JVal.arr p.1, p.2))
      else if ch == 'n' then
        match t with
        | 'u' :: 'l' :: 'l' :: t₂ => some (JVal.null, t₂)
        | _ => none
      else if ch == 't' then
        match t with
        | 'r' :: 'u' :: 'e' :: t₂ => some (JVal.bool true, t₂)
        | _ => none
      else if ch == 'f' then
        match t with
        | 'a' :: 'l' :: 's' :: 'e' :: t₂ => some (JVal.bool false, t₂)
        | _ => none
      else if ch == 'N' then
        match t with
        | 'a' :: 'N' :: t₂ => some (JVal.num PyNum.nan, t₂)
        | _ => none
      else if ch == 'I' then
        match t with
        | 'n' :: 'f' :: 'i' :: 'n' :: 'i' :: 't' :: 'y' :: t₂ => some (JVal.num PyNum.inf, t₂)
        | _ => none
      else if ch == '-' then
        match t with
        | 'I' :: 'n' :: 'f' :: 'i' :: 'n' :: 'i' :: 't' :: 'y' :: t₂ => some (JVal.num PyNum.ninf, t₂)
        | _ => (parseNumber (ch :: t)).map (fun p => (JVal.num p.1, p.2))
      else
        (parseNumber (ch :: t)).map (fun p => (JVal.num p.1, p.2))

/-- Members of an object after the opening brace and whitespace, starting at a
key (a double quote is required, so a trailing comma is rejected): parses
key, colon, value, then either a comma and more members or the closing
brace. -/
def parseMembers (fuel : Nat) (l : List Char) : Option (List (String × JVal) × List Char) :=
  match fuel with
  | 0 => none
  | fuel + 1 =>
    match l with
    | [] => none
    | q :: t =>
      if q == '"' then
        match parseStringBody (t.length + 1) t with
        | none => none
        | some (k, r₁) =>
          match skipWs r₁ with
          | [] => none
          | co :: r₂ =>
            if co == ':' then
              match parseVal fuel (skipWs r₂) with
              | none => none
              | some (v, r₃) =>
                match skipWs r₃ with
                | [] => none
                | sep :: r₄ =>
                  if sep == ',' then
                    (parseMembers fuel (skipWs r₄)).map
                      (fun p => ((String.mk k, v) :: p.1, p.2))
                  else if sep == rbraceC then
                    some ([(String.mk k, v)], r₄)
                  else none
            else none
      else none

/-- Elements of an array after the opening bracket and whitespace, starting at
the first element: value, then either a comma and more elements or the
closing bracket. -/
def parseElems (fuel : Nat) (l : List Char) : Option (List JVal × List Char) :=
  match fuel with
  | 0 => none
  | fuel + 1 =>
    match parseVal fuel l with
    | none => none
    | some (v, r) =>
      match skipWs r with
      | [] => none
      | sep :: r₂ =>
        if sep == ',' then
          (parseElems fuel (skipWs r₂)).map (fun p => (v :: p.1, p.2))
        else if sep == ']' then
          some ([v], r₂)
        else none

end

/-- The function json.loads: skip leading whitespace, decode one value
greedily, skip trailing whitespace, and fail on any extra data. -/
def json_loads (s : String) : Option JVal :=
  let l := skipWs s.toList
  match parseVal (2 * l.length + 2) l with
  | some (v, r) => if (skipWs r).isEmpty then some v else none
  | none => none

/-- Split a list at the first character satisfying `p`, as str.find does:
returns the part before the first hit and the rest starting with the hit. -/
def breakAtFirst (p : Char → Bool) : List Char → Option (List Char × List Char)
  | [] => none
  | c :: t =>
    if p c then some ([], c :: t)
    else (breakAtFirst p t).map (fun q => (c :: q.1, q.2))

/-- Scan of balancear_llaves after its starting brace: `d` is the number of
currently open braces (at least 1); returns the characters up to and
including the brace that brings the count back to zero, or nothing if the
count never returns to zero. -/
def balAux : List Char → Nat → Option (List Char)
  | [], _ => none
  | c :: t, d =>
    if c == rbraceC then
      if d == 1 then some [c]
      else (balAux t (d - 1)).map (fun w => c :: w)
    else if c == lbraceC then
      (balAux t (d + 1)).map (fun w => c :: w)
    else
      (balAux t d).map (fun w => c :: w)

/-- The helper balancear_llaves: find the first opening brace, then walk the
text counting braces and return the slice from that brace to the matching
closing brace, or None when the braces never re-balance. -/
def balancear_llaves (texto : String) : Option String :=
  match breakAtFirst (· == lbraceC) texto.toList with
  | none => none
  | some (_, []) => none
  | some (_, b :: rest) => (balAux rest 1).map (fun w => String.mk (b :: w))

/-- The matches of re.findall applied to the greedy DOTALL pattern
`\{.*\}`: for this pattern there is at most one match, running from the
first opening brace to the last closing brace of the text (provided that
closing brace comes later); after it no closing brace remains, so the scan
finds nothing further. -/
def re_findall_llaves (texto : String) : List String :=
  match breakAtFirst (· == lbraceC) texto.toList with
  | none => []
  | some (_, []) => []
  | some (_, b :: rest) =>
    match breakAtFirst (· == rbraceC) rest.reverse with
    | none => []
    | some (_, []) => []
    | some (_, rb :: midR) => [String.mk (b :: (midR.reverse ++ [rb]))]

/-- Stage one of extraer_json_de_respuesta: parse the whole (already
stripped) text directly. -/
def etapa1 (texto : String) : Option JVal := json_loads texto

/-- Stage two: for each regex candidate, re-balance its braces and parse; the
first candidate that parses wins, a candidate that fails to parse or to
balance is skipped. -/
def etapa2 (texto : String) : Option JVal :=
  (re_findall_llaves texto).findSome? fun cand =>
    match balancear_llaves cand with
    | some balanced => json_loads balanced
    | none => none

/-- Stage three: manual scan from the first opening brace, counting braces
until the count returns to zero, then parse that slice. -/
def etapa3 (texto : String) : Option JVal :=
  match breakAtFirst (· == lbraceC) texto.toList with
  | none => none
  | some (_, []) => none
  | some (_, b :: rest) =>
    match balAux rest 1 with
    | none => none
    | some w => json_loads (String.mk (b :: w))

/-- The nested function extraer_json_de_respuesta: strip the raw text, then
try direct parse, the regex stage and the manual scan in order, returning
None when every stage fails. -/
def extraer_json_de_respuesta (texto : String) : Option JVal :=
  let texto := pyStrip texto
  match etapa1 texto with
  | some v => some v
  | none =>
    match etapa2 texto with
    | some v => some v
    | none => etapa3 texto

/-- Lower-casing of one character as str.lower acts on the alphabets used by
this program: ASCII letters and the accented Spanish letters; every other
character is left unchanged. -/
def pyLowerChar (c : Char) : Char :=
  if 65 ≤ c.toNat && c.toNat ≤ 90 then Char.ofNat (c.toNat + 32)
  else if c == 'Á' then 'á'
  else if c == 'É' then 'é'
  else if c == 'Í' then 'í'
  else if c == 'Ó' then 'ó'
  else if c == 'Ú' then 'ú'
  else if c == 'Ñ' then 'ñ'
  else if c == 'Ü' then 'ü'
  else c

/-- The Python method str.lower. -/
def pyLower (s : String) : String := String.mk (s.toList.map pyLowerChar)

/-- Whether `n` is a leading piece of `h` (list version of startswith). -/
def esPrefijo : List Char → List Char → Bool
  | [], _ => true
  | _ :: _, [] => false
  | a :: as, b :: bs => a == b && esPrefijo as bs

/-- Substring containment on character lists: the Python operator `in`. -/
def esSubListaDe (n : List Char) : List Char → Bool
  | [] => n.isEmpty
  | b :: bs => esPrefijo n (b :: bs) || esSubListaDe n bs

/-- The Python expression `needle in hay` on strings. -/
def esSubcadena (needle hay : String) : Bool :=
  esSubListaDe needle.toList hay.toList

/-- The keyword dictionary `categorias` of clasificar_consulta, in source
order. -/
def categorias : List (String × List String) :=
  [("Automatización",
    ["automatización", "automatizar", "automatizado", "robots", "workflow",
     "procesos", "tareas repetitivas", "eficiencia", "agilizar"]),
   ("Análisis de datos / predicción",
    ["análisis", "datos", "predicción", "predictivo", "estadísticas",
     "machine learning", "aprendizaje automático", "forecast", "proyección",
     "modelo predictivo", "big data", "insights", "tendencias"]),
   ("Procesamiento de texto",
    ["texto", "procesar texto", "nlp", "lenguaje natural", "traducir",
     "resumir", "escribir", "corrección", "edición", "documentos"]),
   ("Procesamiento de imágenes / video",
    ["imágenes", "video", "procesamiento visual", "reconocimiento imagen",
     "computer vision", "detección objetos", "clasificación imagen",
     "edición video"]),
   ("Procesamiento de audio / voz",
    ["audio", "voz", "speech", "reconocimiento voz", "sintetizador voz",
     "transcripción", "podcasts", "música"]),
   ("Generación de contenido",
    ["generar", "contenido", "crear", "escribir", "diseño", "arte", "música",
     "vídeos", "marketing creativo"]),
   ("Recomendación / personalización",
    ["recomendación", "personalización", "sugerencias", "preferencias",
     "usuario", "personalizado", "tailored", "sistemas recomendación"]),
   ("Optimización / decisión inteligente",
    ["optimización", "decisión", "inteligente", "planificación", "estrategia",
     "mejorar", "eficiente", "ruteo", "logística"]),
   ("Asistentes conversacionales",
    ["asistente", "chatbot", "conversacional", "dialogo", "ayuda virtual",
     "soporte", "preguntas", "respuestas"])]

/-- The priority list `orden_prioridad` of clasificar_consulta. -/
def orden_prioridad : List String :=
  ["Asistentes conversacionales", "Optimización / decisión inteligente",
   "Recomendación / personalización", "Generación de contenido",
   "Procesamiento de audio / voz", "Procesamiento de imágenes / video",
   "Procesamiento de texto", "Análisis de datos / predicción",
   "Automatización"]

/-- Lookup in the score dictionary built by clasificar_consulta (the keys of
`categorias` cover every category of the priority list, so the default 0 is
never reached on those). -/
def puntuacionDe (puntuaciones : List (String × Nat)) (categoria : String) : Nat :=
  match puntuaciones.find? (fun p => p.1 == categoria) with
  | some p => p.2
  | none => 0

/-- The function clasificar_consulta: lower-case the text, score every
category by the number of its keywords contained in the text, then return
the first category of the priority list with a positive score, or the
default category. -/
def clasificar_consulta (texto_problema : String) : String :=
  let texto := pyLower texto_problema
  let puntuaciones := categorias.map
    (fun p => (p.1, p.2.countP (fun palabra => esSubcadena palabra texto)))
  match orden_prioridad.find? (fun categoria => 0 < puntuacionDe puntuaciones categoria) with
  | some categoria => categoria
  | none => "Automatización"

/-- The list `categorias_validas` of validar_categoria. -/
def categorias_validas : List String :=
  ["Automatización", "Análisis de datos / predicción", "Procesamiento de texto",
   "Procesamiento de imágenes / video", "Procesamiento de audio / voz",
   "Generación de contenido", "Recomendación / personalización",
   "Optimización / decisión inteligente", "Asistentes conversacionales"]

/-- The function validar_categoria: a non-empty category is valid when it is
one of the nine recognised labels. -/
def validar_categoria (categoria : String) : Bool :=
  if categoria == "" then false
  else categorias_validas.contains categoria

/-- The keyword list the spec associates to a category: written from the
spec's description, for comparison with `categorias`. -/
def palabrasClaveDe (categoria : String) : List String :=
  match categorias.find? (fun p => p.1 == categoria) with
  | some p => p.2
  | none => []

/-- Modelled from the spec: the classifier described in section 4.4 — score a
category by counting keywords occurring as substrings of the lower-cased
input, scan the fixed priority order, return the first positive score, and
fall back to the default category. -/
def clasificar_spec (texto_problema : String) : String :=
  let texto := pyLower texto_problema
  let puntuacionSpec := fun categoria =>
    ((palabrasClaveDe categoria).filter (fun palabra => esSubcadena palabra texto)).length
  match orden_prioridad.find? (fun categoria => 0 < puntuacionSpec categoria) with
  | some categoria => categoria
  | none => "Automatización"

/-- The kind of Python value handed to disenar_prompt_robusto: None, a
string, or a value of any other type. -/
inductive PyIn where
  | none
  | str (s : String)
  | other

/-- Fixed text of the prompt template before the stripped problem text
(braces of the JSON schema are written as \x7b and \x7d, single quotes as
\x27). -/
def parteA : String :=
  "ACTÚA COMO UN CONSULTOR SENIOR DE IA, PRAGMÁTICO Y CRÍTICO.\n" ++
  "Tu objetivo principal no es ser optimista, sino realista. Analiza los costos, los requisitos de datos y las alternativas no-IA. Tu reputación depende de evitar que los clientes inviertan en proyectos de IA inviables.\n" ++
  "La respuesta DEBE SER ÚNICAMENTE un objeto JSON válido, sin ningún texto o explicación fuera del propio JSON.\n" ++
  "\n" ++
  "PROBLEMA O PROYECTO A ANALIZAR: "

/-- Fixed template text between the stripped problem text and the first
follow-up query interpolation. -/
def parteB : String :=
  "\n" ++
  "\n" ++
  "El objeto JSON de salida debe seguir estrictamente la siguiente estructura:\n" ++
  "\n" ++
  "\x7b\n" ++
  "  \"titulo_proyecto\": \"Un título corto y descriptivo para la idea.\",\n" ++
  "  \"resumen_ejecutivo\": \"Un párrafo de 2-4 frases resumiendo el análisis, incluyendo el veredicto final y la principal justificación.\",\n" ++
  "  \"veredicto_ia\": \"Clasifica la idea en UNA de las siguientes categorías: \x27Ideal para IA\x27, \x27Prometedor con Desafíos\x27, \x27Poco Práctico\x27 o \x27Inapropiado para IA\x27.\",\n" ++
  "\n" ++
  "  \"indices_clave\": \x7b\n" ++
  "    \"adecuacion_ia\": \x7b\n" ++
  "      \"puntuacion\": Un número entero del 1 al 100,\n" ++
  "      \"justificacion\": \"Breve explicación sobre si el problema se alinea con las capacidades de la IA (predicción, clasificación, generación, etc.).\"\n" ++
  "    \x7d,\n" ++
  "    \"factibilidad_tecnica\": \x7b\n" ++
  "      \"puntuacion\": Un número entero del 1 al 100,\n" ++
  "      \"justificacion\": \"Análisis sobre la disponibilidad y calidad de los datos, y la complejidad tecnológica.\"\n" ++
  "    \x7d,\n" ++
  "    \"impacto_potencial\": \x7b\n" ++
  "      \"puntuacion\": Un número entero del 1 al 100,\n" ++
  "      \"justificacion\": \"Evaluación del posible retorno de la inversión (ROI), eficiencia ganada o ventaja competitiva.\"\n" ++
  "    \x7d\n" ++
  "  \x7d,\n" ++
  "\n" ++
  "  \"analisis_detallado\": \x7b\n" ++
  "    \"justificacion_ia\": \"Explica en detalle por qué la IA es (o no es) la herramienta adecuada, mencionando tipos de modelos o técnicas aplicables (ej. NLP, Computer Vision, Modelos Predictivos).\",\n" ++
  "    \"requisitos_y_desafios_tecnicos\": \"Describe los datos necesarios (volumen, calidad, etiquetado), la infraestructura requerida y los principales obstáculos técnicos.\",\n" ++
  "    \"analisis_coste_beneficio\": \"Una evaluación cualitativa de los costos estimados (desarrollo, datos, mantenimiento) frente a los beneficios potenciales.\",\n" ++
  "    \"alternativas_no_ia\": \"Sugiere 1 o 2 soluciones más simples que no involucren IA y que podrían resolver una parte o la totalidad del problema de forma más eficiente.\"\n" ++
  "  \x7d,\n" ++
  "\n" ++
  "  \"recomendaciones_estrategicas\": [\n" ++
  "    \"Una lista de 3 a 5 pasos concretos y accionables. Si el proyecto es viable, los pasos para iniciarlo. Si no lo es, los pasos para redefinirlo o buscar alternativas.\"\n" ++
  "  ],\n" ++
  "\n" ++
  "  \"consultas_relacionadas\": [\n" ++
  "    \x7b\n" ++
  "      \"titulo\": \"Análisis de Aspectos Técnicos Avanzados\",\n" ++
  "      \"descripcion\": \"Explora en detalle los requerimientos técnicos específicos, infraestructura necesaria y posibles desafíos de implementación para este proyecto de IA.\",\n" ++
  "      \"consulta_completa\": \"Basado en el análisis anterior sobre \x27"

/-- Fixed template text between the first and second follow-up query
interpolations. -/
def parteC : String :=
  "\x27, profundiza en los aspectos técnicos: ¿qué tipo de modelos de IA serían más apropiados? ¿Qué volumen y calidad de datos se necesitan? ¿Qué infraestructura computacional requeriría? ¿Cuáles son los principales cuellos de botella técnicos y cómo superarlos?\"\n" ++
  "    \x7d,\n" ++
  "    \x7b\n" ++
  "      \"titulo\": \"Evaluación Financiera y ROI Detallado\",\n" ++
  "      \"descripcion\": \"Realiza un análisis financiero completo incluyendo costos de desarrollo, mantenimiento, retorno de inversión esperado y comparación con alternativas tradicionales.\",\n" ++
  "      \"consulta_completa\": \"Continuando con el proyecto \x27"

/-- Fixed template text between the second and third follow-up query
interpolations. -/
def parteD : String :=
  "\x27 analizado anteriormente, realiza una evaluación financiera detallada: calcula los costos estimados de desarrollo e implementación, estima los ahorros o ingresos adicionales generados, calcula el período de retorno de inversión, y compara con soluciones convencionales no basadas en IA.\"\n" ++
  "    \x7d,\n" ++
  "    \x7b\n" ++
  "      \"titulo\": \"Estrategia de Implementación Paso a Paso\",\n" ++
  "      \"descripcion\": \"Desarrolla un plan de implementación práctico con timeline, recursos necesarios y métricas de éxito para llevar este proyecto de IA a producción.\",\n" ++
  "      \"consulta_completa\": \"Para el proyecto \x27"

/-- Fixed template text after the third follow-up query interpolation, up to
the end of the triple-quoted literal. -/
def parteE : String :=
  "\x27 que hemos evaluado, crea una estrategia de implementación detallada: define las fases del proyecto con timelines realistas, identifica los recursos humanos y tecnológicos necesarios, establece métricas de éxito cuantificables, y describe cómo medir y validar los resultados en cada etapa.\"\n" ++
  "    \x7d\n" ++
  "  ],\n" ++
  "\n" ++
  "  \"datos_grafico_radar\": \x7b\n" ++
  "    \"labels\": [\"Adecuación del Problema\", \"Factibilidad de Datos\", \"Impacto/ROI\", \"Ventaja Competitiva\", \"Complejidad Técnica\"],\n" ++
  "    \"valoracion\": [\n" ++
  "      Un entero del 1 al 10 para Adecuación del Problema a la IA,\n" ++
  "      Un entero del 1 al 10 para la calidad y disponibilidad de Datos,\n" ++
  "      Un entero del 1 al 10 para el Retorno de Inversión potencial,\n" ++
  "      Un entero del 1 al 10 para la Ventaja Competitiva que genera,\n" ++
  "      Un entero del 1 al 10 para la Complejidad Técnica (donde 1 es extremadamente complejo y 10 es simple)\n" ++
  "    ]\n" ++
  "  \x7d\n" ++
  "\x7d\n" ++
  "    "

/-- The prompt rendered by the f-string of disenar_prompt_robusto for a valid
string input: the PROBLEMA line embeds the stripped text, while the three
consultas_relacionadas templates embed the argument exactly as passed. -/
def promptOf (problema_del_usuario : String) : String :=
  parteA ++ pyStrip problema_del_usuario ++ parteB ++ problema_del_usuario ++
    parteC ++ problema_del_usuario ++ parteD ++ problema_del_usuario ++ parteE

/-- Modelled from the spec: section 4.1 says the rendered template embeds the
trimmed problem text verbatim, including in the three follow-up query
templates, so every interpolation slot receives the stripped text. -/
def promptSpecOf (problema_del_usuario : String) : String :=
  parteA ++ pyStrip problema_del_usuario ++ parteB ++ pyStrip problema_del_usuario ++
    parteC ++ pyStrip problema_del_usuario ++ parteD ++ pyStrip problema_del_usuario ++ parteE

/-- The function disenar_prompt_robusto: None for a None argument, for a
non-string argument, for a string that strips to the empty string, and for
a string whose stripped form has fewer than 10 characters; otherwise the
rendered prompt. -/
def disenar_prompt_robusto (problema_del_usuario : PyIn) : Option String :=
  match problema_del_usuario with
  | PyIn.none => none
  | PyIn.other => none
  | PyIn.str s =>
    let problema_stripped := pyStrip s
    if problema_stripped == "" then none
    else if problema_stripped.length < 10 then none
    else some (promptOf s)

/-- Python truthiness of an optional string, as used by the checks
`if not CEREBRAS_API_KEY` and `if not api_key`: missing and empty strings
are falsy. -/
def truthyOpt (v : Option String) : Bool :=
  match v with
  | some s => !(s == "")
  | none => false

/-- The Python operator `or` on two optional strings: the first operand when
it is truthy, otherwise the second. -/
def pyOr (a b : Option String) : Option String :=
  if truthyOpt a then a else b

/-- Result of an analysis call: either the extracted report dictionary or an
error dictionary carrying a message (the Python value `{"error": msg}`). -/
inductive Resultado where
  | ok (d : JVal)
  | err (msg : String)

/-- Whether a result is the error dictionary. -/
def esError (r : Resultado) : Bool :=
  match r with
  | Resultado.ok _ => false
  | Resultado.err _ => true

/-- An execution environment: the mapping os.environ.get, from variable name
to optional value. -/
def Entorno : Type := String → Option String

/-- The module-level constant CEREBRAS_API_KEY, read from the environment
once when llm_service is imported. -/
def cerebras_api_key (entorno_importacion : Entorno) : Option String :=
  entorno_importacion "CEREBRAS_API_KEY"

/-- The function analizar_viabilidad_con_cerebras.  The network is abstracted
by `red`, mapping the sent prompt to the text content recovered from the
response, with `none` standing for any transport failure or any response
whose choice/message/content structure fails the defensive checks of the
source (those branches differ only in their message).  The boolean records
whether the network call was made.  The credential check reads the
module-level constant, so only the import-time environment matters. -/
def analizar_viabilidad_con_cerebras (entorno_importacion : Entorno)
    (red : String → Option String) (problema_usuario : PyIn) : Resultado × Bool :=
  if !truthyOpt (cerebras_api_key entorno_importacion) then
    (Resultado.err "API Key de Cerebras no configurada en el servidor.", false)
  else
    match disenar_prompt_robusto problema_usuario with
    | none => (Resultado.err "Error interno al generar el prompt de análisis.", false)
    | some prompt_final =>
      if pyStrip prompt_final == "" then
        (Resultado.err "Error interno al generar el prompt de análisis.", false)
      else
        match red prompt_final with
        | none => (Resultado.err "La API de Cerebras no devolvió una respuesta válida.", true)
        | some raw_content =>
          if pyStrip raw_content == "" then
            (Resultado.err "La respuesta del modelo está vacía. Intente nuevamente con una consulta más específica.", true)
          else
            match extraer_json_de_respuesta raw_content with
            | none => (Resultado.err "La respuesta del modelo no contiene un JSON válido. El modelo puede no estar siguiendo las instrucciones correctamente.", true)
            | some resultado_dict => (Resultado.ok resultado_dict, true)

/-- The function analizar_viabilidad_con_gemini.  Its credential is read from
the environment inside the call (GEMINI_API_KEY, else GOOGLE_API_KEY), so
the call-time environment decides the not-configured outcome; its response
text is parsed with a single direct json.loads, with no fallback stages. -/
def analizar_viabilidad_con_gemini (entorno_llamada : Entorno)
    (red : String → Option String) (problema_usuario : PyIn) : Resultado × Bool :=
  let api_key := pyOr (entorno_llamada "GEMINI_API_KEY") (entorno_llamada "GOOGLE_API_KEY")
  if !truthyOpt api_key then
    (Resultado.err "API Key de Gemini no configurada en el servidor.", false)
  else
    match disenar_prompt_robusto problema_usuario with
    | none => (Resultado.err "Error interno al generar el prompt de análisis.", false)
    | some prompt_final =>
      if pyStrip prompt_final == "" then
        (Resultado.err "Error interno al generar el prompt de análisis.", false)
      else
        match red prompt_final with
        | none => (Resultado.err "La respuesta de Gemini no contiene texto válido en ningún formato esperado.", true)
        | some raw_content =>
          if pyStrip raw_content == "" then
            (Resultado.err "La respuesta del modelo de Gemini está vacía.", true)
          else
            match json_loads raw_content with
            | none => (Resultado.err "La respuesta del modelo no es un JSON válido.", true)
            | some resultado_dict => (Resultado.ok resultado_dict, true)

/-- The dispatcher analizar_viabilidad: route to the chosen provider or
reject an unknown model name. -/
def analizar_viabilidad (model : String) (entorno_importacion entorno_llamada : Entorno)
    (red : String → Option String) (problema_usuario : PyIn) : Resultado × Bool :=
  if model == "gemini" then
    analizar_viabilidad_con_gemini entorno_llamada red problema_usuario
  else if model == "cerebras" then
    analizar_viabilidad_con_cerebras entorno_importacion red problema_usuario
  else
    (Resultado.err "Modelo no soportado. Usa \x27gemini\x27 o \x27cerebras\x27.", false)

/-- The invalid inputs named by claim C3: None, a non-string, a string that
is empty after trimming, or one whose trimmed form has fewer than 10
characters. -/
def EntradaInvalida (entrada : PyIn) : Prop :=
  entrada = PyIn.none ∨ entrada = PyIn.other ∨
    ∃ s, entrada = PyIn.str s ∧ (pyStrip s = "" ∨ (pyStrip s).length < 10)

/-- Whether a result is one of the two not-configured error dictionaries. -/
def esErrorNoConfigurado (r : Resultado) : Bool :=
  match r with
  | Resultado.ok _ => false
  | Resultado.err m =>
    m == "API Key de Cerebras no configurada en el servidor." ||
      m == "API Key de Gemini no configurada en el servidor."

/-- Brace-free text: prose that contains neither an opening nor a closing
brace. -/
def sinLlaves (l : List Char) : Bool :=
  l.all (fun c => !(c == lbraceC) && !(c == rbraceC))

/-- A well-formed object slice for the brace scan: it starts with an opening
brace and the balance walk consumes exactly the remaining characters, the
final one closing the first brace. -/
def esObjetoBalanceado (ob : List Char) : Bool :=
  match ob with
  | [] => false
  | b :: t => b == lbraceC && (balAux t 1 == some t)

/-- A replacement tail for a re-parse: empty, or starting with a character
that ends any token — whitespace, comma, closing bracket, closing brace or
colon.  Appending such a tail to the exact consumed text of a parse cannot
extend any token of that text. -/
def GoodTail (r : List Char) : Prop :=
  r = [] ∨ (isJsonWsB (r.headD ' ') || r.headD ' ' == ',' || r.headD ' ' == ']' ||
            r.headD ' ' == rbraceC || r.headD ' ' == ':') = true

/-- What a successful run of a fuel-indexed parser tells us about the
consumed text `c`: it is non-empty, begins and ends with non-whitespace
(for Python whitespace, hence also JSON whitespace), and re-running the
parser on `c` followed by any good tail, with any sufficient fuel,
reproduces the same value with exactly that tail left over. -/
def ReRun {α : Type} (f : Nat → List Char → Option (α × List Char))
    (c : List Char) (v : α) : Prop :=
  c ≠ [] ∧ isPyWsB (c.headD ' ') = false ∧ isPyWsB (c.getLastD ' ') = false ∧
    ∀ F r, GoodTail r → c.length + 1 ≤ F → f F (c ++ r) = some (v, r)

theorem esPrefijo_self_append (n y : List Char) : esPrefijo n (n ++ y) = true := by
  induction n with
  | nil => rfl
  | cons a as ih => simp [esPrefijo, ih]

theorem esSubListaDe_self_append (n y : List Char) : esSubListaDe n (n ++ y) = true := by
  cases n with
  | nil =>
    cases y with
    | nil => rfl
    | cons b bs => simp [esSubListaDe, esPrefijo]
  | cons a as =>
    have h := esPrefijo_self_append (a :: as) y
    rw [List.cons_append] at h
    show (esPrefijo (a :: as) (a :: (as ++ y)) || esSubListaDe (a :: as) (as ++ y)) = true
    rw [h]
    rfl

theorem esSubListaDe_append_left (n x z : List Char) (h : esSubListaDe n z = true) :
    esSubListaDe n (x ++ z) = true := by
  induction x with
  | nil => simpa using h
  | cons c cs ih => simp [esSubListaDe, ih]

theorem puntuacionDe_categorias (texto c : String) :
    puntuacionDe (categorias.map
        (fun p => (p.1, p.2.countP (fun palabra => esSubcadena palabra texto)))) c
      = ((palabrasClaveDe c).filter (fun palabra => esSubcadena palabra texto)).length := by
  unfold puntuacionDe palabrasClaveDe
  rw [List.find?_map]
  have e : ((fun q : String × Nat => q.1 == c) ∘
      (fun p : String × List String =>
        (p.1, p.2.countP (fun palabra => esSubcadena palabra texto)))) =
      (fun p : String × List String => p.1 == c) := rfl
  rw [e]
  cases h : categorias.find? (fun p : String × List String => p.1 == c) with
  | none => simp
  | some p => simp [List.countP_eq_length_filter]

/-- C1: for every input text the classifier lower-cases it, scores each of
the nine categories by the number of its keywords occurring as substrings,
and returns the first category of the fixed priority order with a positive
score, defaulting to Automatización — together with the four concrete
examples named by the claim. -/
theorem C1_clasificador_por_prioridad :
    (∀ texto, clasificar_consulta texto = clasificar_spec texto) ∧
    clasificar_consulta "Chatbot para atención al cliente" = "Asistentes conversacionales" ∧
    clasificar_consulta "Sistema de predicción de ventas" = "Análisis de datos / predicción" ∧
    clasificar_consulta "Automatizar proceso de facturación" = "Automatización" ∧
    clasificar_consulta "" = "Automatización" := by
  refine ⟨fun texto => ?_, by decide, by decide, by decide, by decide⟩
  unfold clasificar_consulta clasificar_spec
  simp only [puntuacionDe_categorias]

/-- C8: the classifier is total on strings and its result always lies in the
closed set of nine categories accepted by validar_categoria. -/
theorem C8_clasificador_total :
    ∀ texto, validar_categoria (clasificar_consulta texto) = true := by
  have hall : ∀ c ∈ orden_prioridad, validar_categoria c = true := by decide
  intro texto
  dsimp only [clasificar_consulta]
  split
  next c h => exact hall c (List.mem_of_find?_eq_some h)
  next => decide

/-- C3: for None, non-string, whitespace-only or short inputs, prompt
building returns no prompt, and an analysis call on either provider
returns an error value with the network flag still false. -/
theorem C3_entrada_invalida_sin_red :
    ∀ (eI eC : Entorno) (red : String → Option String) (entrada : PyIn),
      EntradaInvalida entrada →
      disenar_prompt_robusto entrada = none ∧
      (analizar_viabilidad "gemini" eI eC red entrada).2 = false ∧
      esError (analizar_viabilidad "gemini" eI eC red entrada).1 = true ∧
      (analizar_viabilidad "cerebras" eI eC red entrada).2 = false ∧
      esError (analizar_viabilidad "cerebras" eI eC red entrada).1 = true := by
  intro eI eC red entrada h
  have hd : disenar_prompt_robusto entrada = none := by
    rcases h with rfl | rfl | ⟨s, rfl, hs⟩
    · rfl
    · rfl
    · dsimp only [disenar_prompt_robusto]
      rcases hs with hs | hs
      · rw [hs]; rfl
      · by_cases he : pyStrip s = ""
        · rw [he]; rfl
        · have h1 : (pyStrip s == "") = false := by simpa [beq_iff_eq] using he
          rw [h1]
          simp [hs]
  refine ⟨hd, ?_, ?_, ?_, ?_⟩
  · show (analizar_viabilidad_con_gemini eC red entrada).2 = false
    dsimp only [analizar_viabilidad_con_gemini]
    rw [hd]
    split <;> rfl
  · show esError (analizar_viabilidad_con_gemini eC red entrada).1 = true
    dsimp only [analizar_viabilidad_con_gemini]
    rw [hd]
    split <;> rfl
  · show (analizar_viabilidad_con_cerebras eI red entrada).2 = false
    dsimp only [analizar_viabilidad_con_cerebras]
    rw [hd]
    split <;> rfl
  · show esError (analizar_viabilidad_con_cerebras eI red entrada).1 = true
    dsimp only [analizar_viabilidad_con_cerebras]
    rw [hd]
    split <;> rfl

/-- Witness for C3 at the concrete short input "corto". -/
theorem C3_entrada_invalida_sin_red_testigo :
    disenar_prompt_robusto (PyIn.str "corto") = none ∧
    (analizar_viabilidad "gemini" (fun _ => some "clave") (fun _ => some "clave")
        (fun _ => some "texto") (PyIn.str "corto")).2 = false ∧
    esError (analizar_viabilidad "gemini" (fun _ => some "clave") (fun _ => some "clave")
        (fun _ => some "texto") (PyIn.str "corto")).1 = true ∧
    (analizar_viabilidad "cerebras" (fun _ => some "clave") (fun _ => some "clave")
        (fun _ => some "texto") (PyIn.str "corto")).2 = false ∧
    esError (analizar_viabilidad "cerebras" (fun _ => some "clave") (fun _ => some "clave")
        (fun _ => some "texto") (PyIn.str "corto")).1 = true :=
  C3_entrada_invalida_sin_red (fun _ => some "clave") (fun _ => some "clave")
    (fun _ => some "texto") (PyIn.str "corto")
    (Or.inr (Or.inr ⟨"corto", rfl, Or.inr (by decide)⟩))

set_option maxRecDepth 100000 in
/-- C9 counterexample: with the same import-time environment but different
call-time environments, the Gemini provider flips between a configured and
a not-configured outcome, because its credential is read inside each call. -/
theorem C9_contraejemplo_gemini :
    ¬ (esErrorNoConfigurado (analizar_viabilidad "gemini" (fun _ => none)
          (fun k => if k == "GEMINI_API_KEY" then some "clave" else none)
          (fun _ => some "\x7b\x7d") (PyIn.str "un problema de negocio")).1
        = esErrorNoConfigurado (analizar_viabilidad "gemini" (fun _ => none)
          (fun _ => none)
          (fun _ => some "\x7b\x7d") (PyIn.str "un problema de negocio")).1) := by
  decide

/-- C9 amended: the Cerebras credential is captured once from the import-time
environment, so its calls ignore the call-time environment entirely; the
Gemini credential is read per call, so its calls ignore the import-time
environment entirely. -/
theorem C9_credenciales_enmendada :
    (∀ (eI e1 e2 : Entorno) (red : String → Option String) (entrada : PyIn),
        analizar_viabilidad "cerebras" eI e1 red entrada =
          analizar_viabilidad "cerebras" eI e2 red entrada) ∧
    (∀ (i1 i2 e : Entorno) (red : String → Option String) (entrada : PyIn),
        analizar_viabilidad "gemini" i1 e red entrada =
          analizar_viabilidad "gemini" i2 e red entrada) :=
  ⟨fun _ _ _ _ _ => rfl, fun _ _ _ _ _ => rfl⟩

theorem toList_append (a b : String) : (a ++ b).toList = a.toList ++ b.toList := rfl

theorem length_dropWhile_le (p : Char → Bool) (l : List Char) :
    (l.dropWhile p).length ≤ l.length := by
  induction l with
  | nil => exact Nat.le_refl 0
  | cons c t ih =>
    by_cases h : p c = true
    · simp only [List.dropWhile, h]
      exact Nat.le_succ_of_le ih
    · have h' : p c = false := by simp [h]
      simp only [List.dropWhile, h']
      exact Nat.le_refl _

theorem dropWhile_eq_self_of_length (p : Char → Bool) (l : List Char)
    (h : (l.dropWhile p).length = l.length) : l.dropWhile p = l := by
  cases l with
  | nil => rfl
  | cons c t =>
    by_cases hc : p c = true
    · exfalso
      have h1 : (List.dropWhile p (c :: t)).length ≤ t.length := by
        simp only [List.dropWhile, hc]
        exact length_dropWhile_le p t
      rw [h] at h1
      simp at h1
    · have hc' : p c = false := by simp [hc]
      simp only [List.dropWhile, hc']

theorem pyStrip_eq_self_of_length (s : String)
    (h : (pyStrip s).length = s.length) : pyStrip s = s := by
  have h0 : ((s.data.dropWhile isPyWsB).reverse.dropWhile isPyWsB).reverse.length
      = s.data.length := h
  have h1 : ((s.data.dropWhile isPyWsB).reverse.dropWhile isPyWsB).length
      = s.data.length := by
    rw [List.length_reverse] at h0
    exact h0
  have hle1 : ((s.data.dropWhile isPyWsB).reverse.dropWhile isPyWsB).length ≤
      (s.data.dropWhile isPyWsB).length := by
    have hx := length_dropWhile_le isPyWsB (s.data.dropWhile isPyWsB).reverse
    rwa [List.length_reverse] at hx
  have hle2 := length_dropWhile_le isPyWsB s.data
  have e1 : (s.data.dropWhile isPyWsB).length = s.data.length := by omega
  have e0 : s.data.dropWhile isPyWsB = s.data := dropWhile_eq_self_of_length _ _ e1
  have h2 : (s.data.reverse.dropWhile isPyWsB).length = s.data.reverse.length := by
    rw [e0] at h1
    rw [List.length_reverse]
    exact h1
  have e3 : s.data.reverse.dropWhile isPyWsB = s.data.reverse :=
    dropWhile_eq_self_of_length _ _ h2
  show String.mk ((s.data.dropWhile isPyWsB).reverse.dropWhile isPyWsB).reverse = s
  rw [e0, e3, List.reverse_reverse]

/-- C4 amended: for every valid input the prompt embeds the stripped problem
text verbatim (in the PROBLEMA line) and also embeds the input exactly as
passed (in the three follow-up query templates); the rendered prompt
coincides with the spec-described all-trimmed rendering exactly when the
input is already trimmed. -/
theorem C4_prompt_enmendada :
    ∀ s : String, 10 ≤ (pyStrip s).length →
      disenar_prompt_robusto (PyIn.str s) = some (promptOf s) ∧
      esSubcadena (pyStrip s) (promptOf s) = true ∧
      esSubcadena s (promptOf s) = true ∧
      (pyStrip s = s → promptOf s = promptSpecOf s) ∧
      (pyStrip s ≠ s → promptOf s ≠ promptSpecOf s) := by
  intro s h10
  have hne : (pyStrip s == "") = false := by
    rw [beq_eq_false_iff_ne]
    intro he
    rw [he] at h10
    exact absurd h10 (by decide)
  have hlen : ¬ (pyStrip s).length < 10 := by omega
  refine ⟨?_, ?_, ?_, ?_, ?_⟩
  · dsimp only [disenar_prompt_robusto]
    rw [hne]
    simp [hlen]
  · have e : (promptOf s).toList = parteA.toList ++ ((pyStrip s).toList ++
        (parteB ++ (s ++ (parteC ++ (s ++ (parteD ++ (s ++ parteE)))))).toList) := by
      simp only [promptOf, toList_append, List.append_assoc]
    unfold esSubcadena
    rw [e]
    exact esSubListaDe_append_left _ _ _ (esSubListaDe_self_append _ _)
  · have e : (promptOf s).toList = parteA.toList ++ ((pyStrip s).toList ++
        (parteB.toList ++ (s.toList ++
          (parteC ++ (s ++ (parteD ++ (s ++ parteE)))).toList))) := by
      simp only [promptOf, toList_append, List.append_assoc]
    unfold esSubcadena
    rw [e]
    exact esSubListaDe_append_left _ _ _ (esSubListaDe_append_left _ _ _
      (esSubListaDe_append_left _ _ _ (esSubListaDe_self_append _ _)))
  · intro h
    unfold promptOf promptSpecOf
    rw [h]
  · intro hne2 heq
    apply hne2
    have hl := congrArg String.length heq
    simp only [promptOf, promptSpecOf, String.length_append] at hl
    exact pyStrip_eq_self_of_length s (by omega)

/-- Witness for the amended C4 at a concrete already-trimmed input. -/
theorem C4_prompt_enmendada_testigo :
    disenar_prompt_robusto (PyIn.str "un problema de negocio") =
      some (promptOf "un problema de negocio") ∧
    esSubcadena (pyStrip "un problema de negocio") (promptOf "un problema de negocio") = true :=
  (fun h => ⟨h.1, h.2.1⟩) (C4_prompt_enmendada "un problema de negocio" (by decide))

/-- C4 counterexample: for the input " un problema de negocio" (leading
space, 22 characters after trimming) the builder succeeds, the prompt
embeds the untrimmed input, and the prompt differs from the all-trimmed
rendering described by the spec — so not every embedded occurrence of the
problem text is the trimmed form. -/
theorem C4_prompt_contraejemplo :
    disenar_prompt_robusto (PyIn.str " un problema de negocio") =
      some (promptOf " un problema de negocio") ∧
    esSubcadena " un problema de negocio" (promptOf " un problema de negocio") = true ∧
    promptOf " un problema de negocio" ≠ promptSpecOf " un problema de negocio" := by
  refine ⟨rfl, ?_, ?_⟩
  · have e : (promptOf " un problema de negocio").toList =
        parteA.toList ++ ((pyStrip " un problema de negocio").toList ++
          (parteB.toList ++ ((" un problema de negocio" : String).toList ++
            (parteC ++ (" un problema de negocio" ++ (parteD ++
              (" un problema de negocio" ++ parteE)))).toList))) := by
      simp only [promptOf, toList_append, List.append_assoc]
    unfold esSubcadena
    rw [e]
    exact esSubListaDe_append_left _ _ _ (esSubListaDe_append_left _ _ _
      (esSubListaDe_append_left _ _ _ (esSubListaDe_self_append _ _)))
  · intro heq
    have hl := congrArg String.length heq
    simp only [promptOf, promptSpecOf, String.length_append] at hl
    have h1 : (pyStrip " un problema de negocio").length = 22 := by decide
    have h2 : (" un problema de negocio" : String).length = 23 := by decide
    omega

/-- C6: when the three stages of extraer_json_de_respuesta all fail on the
stripped text, the function returns None, and it does so in particular on
the truncated JSON prefix named by the claim and on the empty string. -/
theorem C6_extraccion_sin_json_none :
    (∀ texto : String,
      etapa1 (pyStrip texto) = none → etapa2 (pyStrip texto) = none →
      etapa3 (pyStrip texto) = none → extraer_json_de_respuesta texto = none) ∧
    extraer_json_de_respuesta "\x7b\"titulo_proyecto\": \"Test\", \"resumen_ejecutivo\":" = none ∧
    extraer_json_de_respuesta "" = none := by
  refine ⟨fun texto h1 h2 h3 => ?_, rfl, rfl⟩
  dsimp only [extraer_json_de_respuesta]
  simp only [h1, h2, h3]

/-- Witness for C6 on a prose-only raw text. -/
theorem C6_extraccion_sin_json_none_testigo :
    extraer_json_de_respuesta "sin objeto json" = none :=
  C6_extraccion_sin_json_none.1 "sin objeto json" rfl rfl rfl

theorem breakAtFirst_append (p : Char → Bool) (x : List Char) (c : Char) (zs : List Char)
    (hx : x.all (fun a => !(p a)) = true) (hc : p c = true) :
    breakAtFirst p (x ++ c :: zs) = some (x, c :: zs) := by
  induction x with
  | nil => simp [breakAtFirst, hc]
  | cons a t ih =>
    simp only [List.all_cons, Bool.and_eq_true, Bool.not_eq_true'] at hx
    simp [List.cons_append, breakAtFirst, hx.1, ih hx.2]

theorem balAux_append (u X : List Char) :
    ∀ d w, balAux u d = some w → balAux (u ++ X) d = some w := by
  induction u with
  | nil =>
    intro d w h
    simp [balAux] at h
  | cons c t ih =>
    intro d w h
    rw [List.cons_append]
    simp only [balAux] at h ⊢
    by_cases hcr : (c == rbraceC) = true
    · rw [if_pos hcr] at h ⊢
      by_cases hd : (d == 1) = true
      · rw [if_pos hd] at h ⊢
        exact h
      · rw [if_neg hd] at h ⊢
        cases hb : balAux t (d - 1) with
        | none => rw [hb] at h; simp at h
        | some w₁ =>
          rw [hb] at h
          rw [ih _ _ hb]
          exact h
    · rw [if_neg hcr] at h ⊢
      by_cases hcl : (c == lbraceC) = true
      · rw [if_pos hcl] at h ⊢
        cases hb : balAux t (d + 1) with
        | none => rw [hb] at h; simp at h
        | some w₁ =>
          rw [hb] at h
          rw [ih _ _ hb]
          exact h
      · rw [if_neg hcl] at h ⊢
        cases hb : balAux t d with
        | none => rw [hb] at h; simp at h
        | some w₁ =>
          rw [hb] at h
          rw [ih _ _ hb]
          exact h

theorem balAux_last (u : List Char) :
    ∀ d w, balAux u d = some w → ∃ w', w = w' ++ [rbraceC] := by
  induction u with
  | nil =>
    intro d w h
    simp [balAux] at h
  | cons c t ih =>
    intro d w h
    simp only [balAux] at h
    by_cases hcr : (c == rbraceC) = true
    · rw [if_pos hcr] at h
      by_cases hd : (d == 1) = true
      · rw [if_pos hd] at h
        refine ⟨[], ?_⟩
        have hcv : c = rbraceC := beq_iff_eq.mp hcr
        have hw : w = [c] := by
          injection h with h'
          exact h'.symm
        rw [hw, hcv]
        rfl
      · rw [if_neg hd] at h
        cases hb : balAux t (d - 1) with
        | none => rw [hb] at h; simp at h
        | some w₁ =>
          rw [hb] at h
          simp only [Option.map_some', Option.some.injEq] at h
          obtain ⟨w', hw⟩ := ih _ _ hb
          exact ⟨c :: w', by rw [← h, hw, List.cons_append]⟩
    · rw [if_neg hcr] at h
      by_cases hcl : (c == lbraceC) = true
      · rw [if_pos hcl] at h
        cases hb : balAux t (d + 1) with
        | none => rw [hb] at h; simp at h
        | some w₁ =>
          rw [hb] at h
          simp only [Option.map_some', Option.some.injEq] at h
          obtain ⟨w', hw⟩ := ih _ _ hb
          exact ⟨c :: w', by rw [← h, hw, List.cons_append]⟩
      · rw [if_neg hcl] at h
        cases hb : balAux t d with
        | none => rw [hb] at h; simp at h
        | some w₁ =>
          rw [hb] at h
          simp only [Option.map_some', Option.some.injEq] at h
          obtain ⟨w', hw⟩ := ih _ _ hb
          exact ⟨c :: w', by rw [← h, hw, List.cons_append]⟩

theorem sinLlaves_split (l : List Char) (h : sinLlaves l = true) :
    l.all (fun c => !(c == lbraceC)) = true ∧ l.all (fun c => !(c == rbraceC)) = true := by
  simp only [sinLlaves, List.all_eq_true, Bool.and_eq_true] at h
  exact ⟨List.all_eq_true.mpr (fun x hx => (h x hx).1),
         List.all_eq_true.mpr (fun x hx => (h x hx).2)⟩

/-- C5: if the stripped raw text splits as brace-free prose around one
balanced object slice that parses, and the direct-parse stage fails (the
surrounding text being prose, the whole string is not itself JSON), then
extraction returns exactly the embedded object, recovered by stage two. -/
theorem C5_objeto_envuelto_en_prosa :
    ∀ (s : String) (pre ob post : List Char) (v : JVal),
      (pyStrip s).toList = pre ++ ob ++ post →
      sinLlaves pre = true → sinLlaves post = true →
      esObjetoBalanceado ob = true →
      json_loads (String.mk ob) = some v →
      etapa1 (pyStrip s) = none →
      extraer_json_de_respuesta s = some v := by
  intro s pre ob post v hdec hpre hpost hob hload h1
  cases ob with
  | nil => simp [esObjetoBalanceado] at hob
  | cons b t =>
    simp only [esObjetoBalanceado, Bool.and_eq_true] at hob
    have hbal : balAux t 1 = some t := beq_iff_eq.mp hob.2
    obtain ⟨w', hw⟩ := balAux_last t 1 t hbal
    have hpre_lb := (sinLlaves_split pre hpre).1
    have hpost_rb : post.reverse.all (fun c => !(c == rbraceC)) = true := by
      rw [List.all_reverse]
      exact (sinLlaves_split post hpost).2
    have hfind : re_findall_llaves (pyStrip s) = [String.mk (b :: t)] := by
      dsimp only [re_findall_llaves]
      have e : (pyStrip s).toList = pre ++ (b :: (t ++ post)) := by
        rw [hdec]
        simp [List.append_assoc]
      rw [e, breakAtFirst_append _ _ _ _ hpre_lb hob.1]
      dsimp only
      have e2 : (t ++ post).reverse = post.reverse ++ (rbraceC :: w'.reverse) := by
        rw [hw]
        simp [List.reverse_append]
      rw [e2, breakAtFirst_append _ _ _ _ hpost_rb (by simp)]
      dsimp only
      rw [hw]
      simp
    have hbalc : balancear_llaves (String.mk (b :: t)) = some (String.mk (b :: t)) := by
      dsimp only [balancear_llaves]
      have e3 : (String.mk (b :: t)).toList = b :: t := rfl
      rw [e3]
      have e4 : breakAtFirst (fun c => c == lbraceC) (b :: t) = some ([], b :: t) := by
        simp [breakAtFirst, hob.1]
      rw [e4]
      dsimp only
      rw [hbal]
      rfl
    have h2 : etapa2 (pyStrip s) = some v := by
      dsimp only [etapa2]
      rw [hfind]
      simp only [List.findSome?_cons, hbalc, hload]
    dsimp only [extraer_json_de_respuesta]
    simp only [h1, h2]

/-- C10: when the stripped raw text contains two balanced object slices
separated and surrounded by brace-free text, and the direct-parse stage
fails, the regex stage captures the span from the first opening brace to
the last closing brace, the balance repair truncates it at the end of the
first object, and extraction returns the parse of that first object — the
second object is never returned. -/
theorem C10_gana_el_primer_objeto :
    ∀ (s : String) (a o₁ bm o₂ c : List Char) (v : JVal),
      (pyStrip s).toList = a ++ o₁ ++ bm ++ o₂ ++ c →
      sinLlaves a = true → sinLlaves bm = true → sinLlaves c = true →
      esObjetoBalanceado o₁ = true → esObjetoBalanceado o₂ = true →
      json_loads (String.mk o₁) = some v →
      etapa1 (pyStrip s) = none →
      extraer_json_de_respuesta s = some v := by
  intro s a o₁ bm o₂ c v hdec ha hbm hc ho₁ ho₂ hload h1
  cases o₁ with
  | nil => simp [esObjetoBalanceado] at ho₁
  | cons b₁ t₁ =>
    cases o₂ with
    | nil => simp [esObjetoBalanceado] at ho₂
    | cons b₂ t₂ =>
      simp only [esObjetoBalanceado, Bool.and_eq_true] at ho₁ ho₂
      have hbal₁ : balAux t₁ 1 = some t₁ := beq_iff_eq.mp ho₁.2
      have hbal₂ : balAux t₂ 1 = some t₂ := beq_iff_eq.mp ho₂.2
      obtain ⟨w₂, hw₂⟩ := balAux_last t₂ 1 t₂ hbal₂
      have ha_lb := (sinLlaves_split a ha).1
      have hc_rb : c.reverse.all (fun x => !(x == rbraceC)) = true := by
        rw [List.all_reverse]
        exact (sinLlaves_split c hc).2
      have hfind : re_findall_llaves (pyStrip s) =
          [String.mk (b₁ :: (t₁ ++ (bm ++ (b₂ :: t₂))))] := by
        dsimp only [re_findall_llaves]
        have e : (pyStrip s).toList = a ++ (b₁ :: (t₁ ++ (bm ++ ((b₂ :: t₂) ++ c)))) := by
          rw [hdec]
          simp [List.append_assoc]
        rw [e, breakAtFirst_append _ _ _ _ ha_lb ho₁.1]
        dsimp only
        have e2 : (t₁ ++ (bm ++ ((b₂ :: t₂) ++ c))).reverse =
            c.reverse ++ (rbraceC :: (w₂.reverse ++ (b₂ :: (bm.reverse ++ t₁.reverse)))) := by
          rw [hw₂]
          simp [List.reverse_append]
        rw [e2, breakAtFirst_append _ _ _ _ hc_rb (by simp)]
        dsimp only
        have e3 : (w₂.reverse ++ (b₂ :: (bm.reverse ++ t₁.reverse))).reverse ++ [rbraceC] =
            t₁ ++ (bm ++ (b₂ :: t₂)) := by
          rw [hw₂]
          simp [List.reverse_append, List.append_assoc]
        rw [e3]
      have hbalc : balancear_llaves (String.mk (b₁ :: (t₁ ++ (bm ++ (b₂ :: t₂))))) =
          some (String.mk (b₁ :: t₁)) := by
        dsimp only [balancear_llaves]
        have e5 : (String.mk (b₁ :: (t₁ ++ (bm ++ (b₂ :: t₂))))).toList =
            b₁ :: (t₁ ++ (bm ++ (b₂ :: t₂))) := rfl
        rw [e5]
        have e4 : breakAtFirst (fun x => x == lbraceC) (b₁ :: (t₁ ++ (bm ++ (b₂ :: t₂)))) =
            some ([], b₁ :: (t₁ ++ (bm ++ (b₂ :: t₂)))) := by
          simp [breakAtFirst, ho₁.1]
        rw [e4]
        dsimp only
        rw [balAux_append t₁ (bm ++ (b₂ :: t₂)) 1 t₁ hbal₁]
        rfl
      have h2 : etapa2 (pyStrip s) = some v := by
        dsimp only [etapa2]
        rw [hfind]
        simp only [List.findSome?_cons, hbalc, hload]
      dsimp only [extraer_json_de_respuesta]
      simp only [h1, h2]

/-- Witness for C5 at the raw text named by the claim. -/
theorem C5_objeto_envuelto_en_prosa_testigo :
    extraer_json_de_respuesta "Here is the result: \x7b\"a\":1\x7d thanks" =
      some (JVal.obj [("a", JVal.num (PyNum.int 1))]) :=
  C5_objeto_envuelto_en_prosa "Here is the result: \x7b\"a\":1\x7d thanks"
    ("Here is the result: ".toList) ("\x7b\"a\":1\x7d".toList) (" thanks".toList)
    (JVal.obj [("a", JVal.num (PyNum.int 1))])
    rfl rfl rfl rfl rfl rfl

/-- Witness for C10 at a raw text holding two complete objects: the first is
returned. -/
theorem C10_gana_el_primer_objeto_testigo :
    extraer_json_de_respuesta "x \x7b\"a\":1\x7d y \x7b\"b\":2\x7d z" =
      some (JVal.obj [("a", JVal.num (PyNum.int 1))]) :=
  C10_gana_el_primer_objeto "x \x7b\"a\":1\x7d y \x7b\"b\":2\x7d z"
    ("x ".toList) ("\x7b\"a\":1\x7d".toList) (" y ".toList) ("\x7b\"b\":2\x7d".toList)
    (" z".toList) (JVal.obj [("a", JVal.num (PyNum.int 1))])
    rfl rfl rfl rfl rfl rfl rfl rfl

theorem jsonWs_pyWs (c : Char) (h : isJsonWsB c = true) : isPyWsB c = true := by
  simp only [isJsonWsB, Bool.or_eq_true, beq_iff_eq] at h
  rcases h with ((rfl | rfl) | rfl) | rfl <;> rfl

theorem dropWhile_all_append (p : Char → Bool) (a b : List Char)
    (ha : a.all p = true) : (a ++ b).dropWhile p = b.dropWhile p := by
  induction a with
  | nil => rfl
  | cons x t ih =>
    simp only [List.all_cons, Bool.and_eq_true] at ha
    simp [List.dropWhile, ha.1, ih ha.2]

theorem dropWhile_cons_false (p : Char → Bool) (c : Char) (t : List Char)
    (h : p c = false) : (c :: t).dropWhile p = c :: t := by
  simp [List.dropWhile, h]

theorem skipWs_all_append (a b : List Char) (ha : a.all isJsonWsB = true)
    (hb : b = [] ∨ isJsonWsB (b.headD ' ') = false) : skipWs (a ++ b) = b := by
  unfold skipWs
  rw [dropWhile_all_append _ _ _ ha]
  rcases hb with rfl | hb
  · rfl
  · cases b with
    | nil => rfl
    | cons c t => exact dropWhile_cons_false _ _ _ hb

theorem skipWs_head_false (b : List Char)
    (hb : b = [] ∨ isJsonWsB (b.headD ' ') = false) : skipWs b = b := by
  have := skipWs_all_append [] b rfl hb
  simpa using this

theorem takeWhile_all_append (p : Char → Bool) (a b : List Char)
    (ha : a.all p = true) (hb : b = [] ∨ p (b.headD ' ') = false) :
    (a ++ b).takeWhile p = a ∧ (a ++ b).dropWhile p = b := by
  induction a with
  | nil =>
    constructor
    · rcases hb with rfl | hb
      · rfl
      · cases b with
        | nil => rfl
        | cons c t =>
          simp only [List.headD_cons] at hb
          simp [List.takeWhile, hb]
    · rcases hb with rfl | hb
      · rfl
      · cases b with
        | nil => rfl
        | cons c t => exact dropWhile_cons_false _ _ _ hb
  | cons x t ih =>
    simp only [List.all_cons, Bool.and_eq_true] at ha
    obtain ⟨h1, h2⟩ := ih ha.2
    constructor
    · simp [List.takeWhile, ha.1, h1]
    · simp [List.dropWhile, ha.1, h2]

theorem all_takeWhile (p : Char → Bool) (l : List Char) :
    (l.takeWhile p).all p = true := by
  induction l with
  | nil => rfl
  | cons c t ih =>
    by_cases h : p c = true
    · simp [List.takeWhile, h, ih]
    · have h' : p c = false := by simp [h]
      simp [List.takeWhile, h']

theorem head_dropWhile_false (p : Char → Bool) (l : List Char) :
    l.dropWhile p = [] ∨ p ((l.dropWhile p).headD ' ') = false := by
  induction l with
  | nil => exact Or.inl rfl
  | cons c t ih =>
    by_cases h : p c = true
    · simpa [List.dropWhile, h] using ih
    · have h' : p c = false := by simp [h]
      right
      simp [List.dropWhile, h']

theorem getLastD_default_irrel (b : Char) (u : List Char) (a d : Char) :
    (b :: u).getLastD a = (b :: u).getLastD d := by
  simp only [List.getLastD_cons]

theorem getLastD_append_right (x y : List Char) (d : Char) (hy : y ≠ []) :
    (x ++ y).getLastD d = y.getLastD d := by
  induction x generalizing d with
  | nil => rfl
  | cons a t ih =>
    rw [List.cons_append, List.getLastD_cons]
    cases y with
    | nil => exact absurd rfl hy
    | cons e v =>
      cases t with
      | nil => exact getLastD_default_irrel e v a d
      | cons b u =>
        rw [ih a]
        exact getLastD_default_irrel e v a d

theorem hexVal_quote : hexVal '"' = none := rfl

theorem hex4_quote₁ (b c d : Char) : hex4 '"' b c d = none := by
  unfold hex4
  rw [hexVal_quote]

theorem hex4_quote₂ (a c d : Char) : hex4 a '"' c d = none := by
  unfold hex4
  rw [hexVal_quote]
  cases hexVal a <;> rfl

theorem hex4_quote₃ (a b d : Char) : hex4 a b '"' d = none := by
  unfold hex4
  rw [hexVal_quote]
  cases hexVal a <;> cases hexVal b <;> rfl

theorem hex4_quote₄ (a b c : Char) : hex4 a b c '"' = none := by
  unfold hex4
  rw [hexVal_quote]
  cases hexVal a <;> cases hexVal b <;> cases hexVal c <;> rfl

theorem surrogatePair_rerun_lone (G n : Nat) (c₂ r' p₁ : List Char)
    (hne : c₂ ≠ []) (hlast : c₂.getLastD ' ' = '"')
    (hre : ∀ F'' r'', c₂.length + 1 ≤ F'' → parseStringBody F'' (c₂ ++ r'') = some (p₁, r''))
    (hG : c₂.length + 1 ≤ G)
    (hsafe :
      (∃ a₂ b₂ c₄ d₂ c₅, c₂ = '\\' :: 'u' :: a₂ :: b₂ :: c₄ :: d₂ :: c₅ ∧
        (hex4 a₂ b₂ c₄ d₂ = none ∨
          ∃ m, hex4 a₂ b₂ c₄ d₂ = some m ∧ (56320 ≤ m && m < 57344) = false)) ∨
      c₂.headD ' ' ≠ '\\' ∨ c₂.tail.headD ' ' ≠ 'u' ∨ c₂.length < 6) :
    surrogatePair (parseStringBody G) n (c₂ ++ r') = some (Char.ofNat n :: p₁, r') := by
  unfold surrogatePair
  split
  next a₂' b₂' c₄' d₂' t₄' heq =>
    cases c₂ with
    | nil => exact absurd rfl hne
    | cons x₀ c₂₁ =>
      rw [List.cons_append] at heq
      obtain ⟨hx₀, heq₁⟩ := List.cons.injEq _ _ _ _ ▸ heq
      cases c₂₁ with
      | nil =>
        rw [hx₀] at hlast
        exact absurd hlast (by decide)
      | cons x₁ c₂₂ =>
        rw [List.cons_append] at heq₁
        obtain ⟨hx₁, heq₂⟩ := List.cons.injEq _ _ _ _ ▸ heq₁
        cases c₂₂ with
        | nil =>
          rw [hx₁] at hlast
          simp only [List.getLastD_cons] at hlast
          exact absurd hlast (by decide)
        | cons x₂ c₂₃ =>
          rw [List.cons_append] at heq₂
          obtain ⟨hx₂, heq₃⟩ := List.cons.injEq _ _ _ _ ▸ heq₂
          cases c₂₃ with
          | nil =>
            simp only [List.getLastD_cons] at hlast
            have hq : x₂ = '"' := hlast
            have hnone' : hex4 a₂' b₂' c₄' d₂' = none := by
              rw [← hx₂, hq]
              exact hex4_quote₁ _ _ _
            rw [hnone']
            dsimp only
            rw [hre G r' hG]
            rfl
          | cons x₃ c₂₄ =>
            rw [List.cons_append] at heq₃
            obtain ⟨hx₃, heq₄⟩ := List.cons.injEq _ _ _ _ ▸ heq₃
            cases c₂₄ with
            | nil =>
              simp only [List.getLastD_cons] at hlast
              have hq : x₃ = '"' := hlast
              have hnone' : hex4 a₂' b₂' c₄' d₂' = none := by
                rw [← hx₃, hq]
                exact hex4_quote₂ _ _ _
              rw [hnone']
              dsimp only
              rw [hre G r' hG]
              rfl
            | cons x₄ c₂₅ =>
              rw [List.cons_append] at heq₄
              obtain ⟨hx₄, heq₅⟩ := List.cons.injEq _ _ _ _ ▸ heq₄
              cases c₂₅ with
              | nil =>
                simp only [List.getLastD_cons] at hlast
                have hq : x₄ = '"' := hlast
                have hnone' : hex4 a₂' b₂' c₄' d₂' = none := by
                  rw [← hx₄, hq]
                  exact hex4_quote₃ _ _ _
                rw [hnone']
                dsimp only
                rw [hre G r' hG]
                rfl
              | cons x₅ c₂₆ =>
                rw [List.cons_append] at heq₅
                obtain ⟨hx₅, heq₆⟩ := List.cons.injEq _ _ _ _ ▸ heq₅
                cases c₂₆ with
                | nil =>
                  simp only [List.getLastD_cons] at hlast
                  have hq : x₅ = '"' := hlast
                  have hnone' : hex4 a₂' b₂' c₄' d₂' = none := by
                    rw [← hx₅, hq]
                    exact hex4_quote₄ _ _ _
                  rw [hnone']
                  dsimp only
                  rw [hre G r' hG]
                  rfl
                | cons x₆ c₂₇ =>
                  rcases hsafe with ⟨a₂, b₂, c₄, d₂, c₅, hc₂, hhex⟩ | hh | hh | hh
                  · simp only [List.cons.injEq] at hc₂
                    obtain ⟨e₀, e₁, e₂, e₃, e₄, e₅, e₆⟩ := hc₂
                    have ha : a₂' = a₂ := by rw [← hx₂, e₂]
                    have hb : b₂' = b₂ := by rw [← hx₃, e₃]
                    have hcc : c₄' = c₄ := by rw [← hx₄, e₄]
                    have hdd : d₂' = d₂ := by rw [← hx₅, e₅]
                    rcases hhex with hnone | ⟨m, hm, hlo⟩
                    · have hnone' : hex4 a₂' b₂' c₄' d₂' = none := by
                        rw [ha, hb, hcc, hdd]
                        exact hnone
                      rw [hnone']
                      dsimp only
                      rw [hre G r' hG]
                      rfl
                    · have hm' : hex4 a₂' b₂' c₄' d₂' = some m := by
                        rw [ha, hb, hcc, hdd]
                        exact hm
                      rw [hm']
                      dsimp only
                      rw [if_neg (by simp [hlo])]
                      rw [hre G r' hG]
                      rfl
                  · rw [hx₀] at hh
                    exact absurd rfl hh
                  · rw [hx₁] at hh
                    exact absurd rfl hh
                  · simp at hh
                    omega
  next hne' =>
    rw [hre G r' hG]
    rfl

theorem psb_eval_quote (G : Nat) (u : List Char) :
    parseStringBody (G + 1) ('"' :: u) = some ([], u) := rfl

theorem psb_eval_bs (G : Nat) (e : Char) (u : List Char) :
    parseStringBody (G + 1) ('\\' :: e :: u) =
      (if (e == 'u') = true then
        (match u with
         | a :: b :: c₃ :: d :: t₃ =>
           (match hex4 a b c₃ d with
            | none => none
            | some n =>
              if 55296 ≤ n && n < 56320 then surrogatePair (parseStringBody G) n t₃
              else (parseStringBody G t₃).map (fun p => (Char.ofNat n :: p.1, p.2)))
         | _ => none)
      else
        match escMap e with
        | some d => (parseStringBody G u).map (fun p => (d :: p.1, p.2))
        | none => none) := rfl

theorem psb_eval_u (G : Nat) (a b c₃ d : Char) (u : List Char) :
    parseStringBody (G + 1) ('\\' :: 'u' :: a :: b :: c₃ :: d :: u) =
      (match hex4 a b c₃ d with
       | none => none
       | some n =>
         if 55296 ≤ n && n < 56320 then surrogatePair (parseStringBody G) n u
         else (parseStringBody G u).map (fun p => (Char.ofNat n :: p.1, p.2))) := rfl

theorem psb_eval_other (G : Nat) (c : Char) (u : List Char)
    (h1 : (c == '"') = false) (h2 : (c == '\\') = false) :
    parseStringBody (G + 1) (c :: u) =
      if c.toNat < 32 then none
      else (parseStringBody G u).map (fun p => (c :: p.1, p.2)) := by
  simp only [parseStringBody]
  rw [if_neg (by simp [h1]), if_neg (by simp [h2])]

theorem append_eq_six (c₂ r₁ : List Char) (y₀ y₁ y₂ y₃ y₄ y₅ : Char) (rest : List Char)
    (he : c₂ ++ r₁ = y₀ :: y₁ :: y₂ :: y₃ :: y₄ :: y₅ :: rest) (hl : 6 ≤ c₂.length) :
    ∃ c₅, c₂ = y₀ :: y₁ :: y₂ :: y₃ :: y₄ :: y₅ :: c₅ := by
  cases c₂ with
  | nil => simp at hl
  | cons x₀ u₀ =>
    cases u₀ with
    | nil => simp at hl
    | cons x₁ u₁ =>
      cases u₁ with
      | nil => simp at hl
      | cons x₂ u₂ =>
        cases u₂ with
        | nil => simp at hl
        | cons x₃ u₃ =>
          cases u₃ with
          | nil => simp at hl
          | cons x₄ u₄ =>
            cases u₄ with
            | nil => simp at hl
            | cons x₅ u₅ =>
              refine ⟨u₅, ?_⟩
              simp only [List.cons_append, List.cons.injEq] at he
              obtain ⟨e₀, e₁, e₂, e₃, e₄, e₅, -⟩ := he
              rw [e₀, e₁, e₂, e₃, e₄, e₅]

theorem sp_eval_pat (psb : List Char → Option (List Char × List Char)) (n : Nat)
    (a₂ b₂ c₄ d₂ : Char) (u : List Char) :
    surrogatePair psb n ('\\' :: 'u' :: a₂ :: b₂ :: c₄ :: d₂ :: u) =
      (match hex4 a₂ b₂ c₄ d₂ with
       | some m =>
         if 56320 ≤ m && m < 57344 then
           (psb u).map (fun p => (pairChar n m :: p.1, p.2))
         else
           (psb ('\\' :: 'u' :: a₂ :: b₂ :: c₄ :: d₂ :: u)).map
             (fun p => (Char.ofNat n :: p.1, p.2))
       | none =>
         (psb ('\\' :: 'u' :: a₂ :: b₂ :: c₄ :: d₂ :: u)).map
           (fun p => (Char.ofNat n :: p.1, p.2))) := rfl

theorem SB_master :
    ∀ F t cont r, parseStringBody F t = some (cont, r) →
      ∃ c, t = c ++ r ∧ c ≠ [] ∧ c.getLastD ' ' = '"' ∧
        ∀ F' r', c.length + 1 ≤ F' → parseStringBody F' (c ++ r') = some (cont, r') := by
  intro F
  induction F with
  | zero =>
    intro t cont r h
    simp [parseStringBody] at h
  | succ F ih =>
    intro t cont r h
    cases t with
    | nil => simp [parseStringBody] at h
    | cons c t =>
      by_cases hq : (c == '"') = true
      · have hc : c = '"' := beq_iff_eq.mp hq
        subst hc
        rw [psb_eval_quote] at h
        simp only [Option.some.injEq, Prod.mk.injEq] at h
        obtain ⟨h1, h2⟩ := h
        refine ⟨['"'], by rw [h2]; rfl, by simp, rfl, ?_⟩
        intro F' r' hF
        obtain ⟨G, rfl⟩ : ∃ G, F' = G + 1 := ⟨F' - 1, by omega⟩
        rw [← h1]
        rfl
      · by_cases hbs : (c == '\\') = true
        · have hc : c = '\\' := beq_iff_eq.mp hbs
          subst hc
          cases t with
          | nil =>
            rw [show parseStringBody (F + 1) ['\\'] = none from rfl] at h
            exact Option.noConfusion h
          | cons e t₂ =>
            rw [psb_eval_bs] at h
            by_cases hu : (e == 'u') = true
            · have he : e = 'u' := beq_iff_eq.mp hu
              subst he
              rw [if_pos (by decide)] at h
              cases t₂ with
              | nil => simp at h
              | cons a t₂₁ =>
                cases t₂₁ with
                | nil => simp at h
                | cons b t₂₂ =>
                  cases t₂₂ with
                  | nil => simp at h
                  | cons c₃ t₂₃ =>
                    cases t₂₃ with
                    | nil => simp at h
                    | cons d t₃ =>
                      dsimp only at h
                      cases hhex : hex4 a b c₃ d with
                      | none =>
                        rw [hhex] at h
                        simp at h
                      | some n =>
                        rw [hhex] at h
                        dsimp only at h
                        by_cases hhi : (55296 ≤ n && n < 56320) = true
                        · rw [if_pos hhi] at h
                          unfold surrogatePair at h
                          split at h
                          next u' a₂ b₂ c₄ d₂ t₄ =>
                            cases hhex₂ : hex4 a₂ b₂ c₄ d₂ with
                            | some m =>
                              rw [hhex₂] at h
                              dsimp only at h
                              by_cases hlo : (56320 ≤ m && m < 57344) = true
                              · rw [if_pos hlo] at h
                                cases hsb : parseStringBody F t₄ with
                                | none => rw [hsb] at h; simp at h
                                | some pr =>
                                  obtain ⟨p₁, r₁⟩ := pr
                                  rw [hsb] at h
                                  simp only [Option.map_some', Option.some.injEq,
                                    Prod.mk.injEq] at h
                                  obtain ⟨hcont, hr⟩ := h
                                  subst hr
                                  obtain ⟨c₄', hdec, hcne, hclast, hcre⟩ := ih t₄ p₁ r₁ hsb
                                  refine ⟨'\\' :: 'u' :: a :: b :: c₃ :: d ::
                                      '\\' :: 'u' :: a₂ :: b₂ :: c₄ :: d₂ :: c₄', ?_, by simp, ?_, ?_⟩
                                  · rw [hdec]
                                    simp
                                  · have e12 : ('\\' :: 'u' :: a :: b :: c₃ :: d ::
                                        '\\' :: 'u' :: a₂ :: b₂ :: c₄ :: d₂ :: c₄') =
                                        ['\\', 'u', a, b, c₃, d, '\\', 'u', a₂, b₂, c₄, d₂] ++ c₄' := rfl
                                    rw [e12, getLastD_append_right _ _ _ hcne, hclast]
                                  · intro F' r' hF
                                    obtain ⟨G, rfl⟩ : ∃ G, F' = G + 1 := ⟨F' - 1, by omega⟩
                                    simp only [List.cons_append]
                                    rw [psb_eval_u, hhex]
                                    dsimp only
                                    rw [if_pos hhi]
                                    rw [sp_eval_pat, hhex₂]
                                    dsimp only
                                    rw [if_pos hlo]
                                    rw [hcre G r' (by simp at hF; omega)]
                                    rw [← hcont]
                                    rfl
                              · rw [if_neg hlo] at h
                                cases hsb : parseStringBody F
                                    ('\\' :: 'u' :: a₂ :: b₂ :: c₄ :: d₂ :: t₄) with
                                | none => rw [hsb] at h; simp at h
                                | some pr =>
                                  obtain ⟨p₁, r₁⟩ := pr
                                  rw [hsb] at h
                                  simp only [Option.map_some', Option.some.injEq,
                                    Prod.mk.injEq] at h
                                  obtain ⟨hcont, hr⟩ := h
                                  subst hr
                                  obtain ⟨c₂, hdec, hcne, hclast, hcre⟩ :=
                                    ih ('\\' :: 'u' :: a₂ :: b₂ :: c₄ :: d₂ :: t₄) p₁ r₁ hsb
                                  refine ⟨'\\' :: 'u' :: a :: b :: c₃ :: d :: c₂, ?_, by simp, ?_, ?_⟩
                                  · rw [hdec]
                                    simp
                                  · have e6 : ('\\' :: 'u' :: a :: b :: c₃ :: d :: c₂) =
                                        ['\\', 'u', a, b, c₃, d] ++ c₂ := rfl
                                    rw [e6, getLastD_append_right _ _ _ hcne, hclast]
                                  · intro F' r' hF
                                    obtain ⟨G, rfl⟩ : ∃ G, F' = G + 1 := ⟨F' - 1, by omega⟩
                                    simp only [List.cons_append]
                                    rw [psb_eval_u, hhex]
                                    dsimp only
                                    rw [if_pos hhi]
                                    rw [← hcont]
                                    have hG : c₂.length + 1 ≤ G := by simp at hF; omega
                                    by_cases hlen : c₂.length < 6
                                    · exact surrogatePair_rerun_lone G n c₂ r' p₁ hcne hclast
                                        hcre hG (Or.inr (Or.inr (Or.inr hlen)))
                                    · obtain ⟨c₅, hc₅⟩ := append_eq_six c₂ r₁ '\\' 'u' a₂ b₂ c₄ d₂
                                        t₄ hdec.symm (by omega)
                                      exact surrogatePair_rerun_lone G n c₂ r' p₁ hcne hclast
                                        hcre hG (Or.inl ⟨a₂, b₂, c₄, d₂, c₅, hc₅,
                                          Or.inr ⟨m, hhex₂, Bool.eq_false_iff.mpr hlo⟩⟩)
                            | none =>
                              rw [hhex₂] at h
                              dsimp only at h
                              cases hsb : parseStringBody F
                                  ('\\' :: 'u' :: a₂ :: b₂ :: c₄ :: d₂ :: t₄) with
                              | none => rw [hsb] at h; simp at h
                              | some pr =>
                                obtain ⟨p₁, r₁⟩ := pr
                                rw [hsb] at h
                                simp only [Option.map_some', Option.some.injEq,
                                  Prod.mk.injEq] at h
                                obtain ⟨hcont, hr⟩ := h
                                subst hr
                                obtain ⟨c₂, hdec, hcne, hclast, hcre⟩ :=
                                  ih ('\\' :: 'u' :: a₂ :: b₂ :: c₄ :: d₂ :: t₄) p₁ r₁ hsb
                                refine ⟨'\\' :: 'u' :: a :: b :: c₃ :: d :: c₂, ?_, by simp, ?_, ?_⟩
                                · rw [hdec]
                                  simp
                                · have e6 : ('\\' :: 'u' :: a :: b :: c₃ :: d :: c₂) =
                                      ['\\', 'u', a, b, c₃, d] ++ c₂ := rfl
                                  rw [e6, getLastD_append_right _ _ _ hcne, hclast]
                                · intro F' r' hF
                                  obtain ⟨G, rfl⟩ : ∃ G, F' = G + 1 := ⟨F' - 1, by omega⟩
                                  simp only [List.cons_append]
                                  rw [psb_eval_u, hhex]
                                  dsimp only
                                  rw [if_pos hhi]
                                  rw [← hcont]
                                  have hG : c₂.length + 1 ≤ G := by simp at hF; omega
                                  by_cases hlen : c₂.length < 6
                                  · exact surrogatePair_rerun_lone G n c₂ r' p₁ hcne hclast
                                      hcre hG (Or.inr (Or.inr (Or.inr hlen)))
                                  · obtain ⟨c₅, hc₅⟩ := append_eq_six c₂ r₁ '\\' 'u' a₂ b₂ c₄ d₂
                                      t₄ hdec.symm (by omega)
                                    exact surrogatePair_rerun_lone G n c₂ r' p₁ hcne hclast
                                      hcre hG (Or.inl ⟨a₂, b₂, c₄, d₂, c₅, hc₅, Or.inl hhex₂⟩)
                          next hnm =>
                            cases hsb : parseStringBody F t₃ with
                            | none => rw [hsb] at h; simp at h
                            | some pr =>
                              obtain ⟨p₁, r₁⟩ := pr
                              rw [hsb] at h
                              simp only [Option.map_some', Option.some.injEq,
                                Prod.mk.injEq] at h
                              obtain ⟨hcont, hr⟩ := h
                              subst hr
                              obtain ⟨c₂, hdec, hcne, hclast, hcre⟩ := ih t₃ p₁ r₁ hsb
                              refine ⟨'\\' :: 'u' :: a :: b :: c₃ :: d :: c₂, ?_, by simp, ?_, ?_⟩
                              · rw [hdec]
                                simp
                              · have e6 : ('\\' :: 'u' :: a :: b :: c₃ :: d :: c₂) =
                                    ['\\', 'u', a, b, c₃, d] ++ c₂ := rfl
                                rw [e6, getLastD_append_right _ _ _ hcne, hclast]
                              · intro F' r' hF
                                obtain ⟨G, rfl⟩ : ∃ G, F' = G + 1 := ⟨F' - 1, by omega⟩
                                simp only [List.cons_append]
                                rw [psb_eval_u, hhex]
                                dsimp only
                                rw [if_pos hhi]
                                rw [← hcont]
                                have hG : c₂.length + 1 ≤ G := by simp at hF; omega
                                by_cases hlen : c₂.length < 6
                                · exact surrogatePair_rerun_lone G n c₂ r' p₁ hcne hclast
                                    hcre hG (Or.inr (Or.inr (Or.inr hlen)))
                                · cases c₂ with
                                  | nil => exact absurd rfl hcne
                                  | cons x₀ c₂a =>
                                    by_cases hx0 : x₀ = '\\'
                                    · cases c₂a with
                                      | nil => simp at hlen
                                      | cons x₁ c₂b =>
                                        by_cases hx1 : x₁ = 'u'
                                        · exfalso
                                          cases c₂b with
                                          | nil => simp at hlen
                                          | cons y₂ c₂c =>
                                            cases c₂c with
                                            | nil => simp at hlen
                                            | cons y₃ c₂d =>
                                              cases c₂d with
                                              | nil => simp at hlen
                                              | cons y₄ c₂e =>
                                                cases c₂e with
                                                | nil => simp at hlen
                                                | cons y₅ c₂f =>
                                                  refine hnm y₂ y₃ y₄ y₅ (c₂f ++ r₁) ?_
                                                  rw [hdec, hx0, hx1]
                                                  simp
                                        · exact surrogatePair_rerun_lone G n _ r' p₁ hcne hclast
                                            hcre hG (Or.inr (Or.inr (Or.inl (by simpa using hx1))))
                                    · exact surrogatePair_rerun_lone G n _ r' p₁ hcne hclast
                                        hcre hG (Or.inr (Or.inl (by simpa using hx0)))
                        · rw [if_neg hhi] at h
                          cases hsb : parseStringBody F t₃ with
                          | none => rw [hsb] at h; simp at h
                          | some pr =>
                            obtain ⟨p₁, r₁⟩ := pr
                            rw [hsb] at h
                            simp only [Option.map_some', Option.some.injEq, Prod.mk.injEq] at h
                            obtain ⟨hcont, hr⟩ := h
                            subst hr
                            obtain ⟨c₂, hdec, hcne, hclast, hcre⟩ := ih t₃ p₁ r₁ hsb
                            refine ⟨'\\' :: 'u' :: a :: b :: c₃ :: d :: c₂, ?_, by simp, ?_, ?_⟩
                            · rw [hdec]
                              simp
                            · have e6 : ('\\' :: 'u' :: a :: b :: c₃ :: d :: c₂) =
                                  ['\\', 'u', a, b, c₃, d] ++ c₂ := rfl
                              rw [e6, getLastD_append_right _ _ _ hcne, hclast]
                            · intro F' r' hF
                              obtain ⟨G, rfl⟩ : ∃ G, F' = G + 1 := ⟨F' - 1, by omega⟩
                              simp only [List.cons_append]
                              rw [psb_eval_u, hhex]
                              dsimp only
                              rw [if_neg hhi]
                              rw [hcre G r' (by simp at hF; omega)]
                              rw [← hcont]
                              rfl
            · rw [if_neg hu] at h
              cases hesc : escMap e with
              | none =>
                rw [hesc] at h
                simp at h
              | some d' =>
                rw [hesc] at h
                dsimp only at h
                cases hsb : parseStringBody F t₂ with
                | none => rw [hsb] at h; simp at h
                | some pr =>
                  obtain ⟨p₁, r₁⟩ := pr
                  rw [hsb] at h
                  simp only [Option.map_some', Option.some.injEq, Prod.mk.injEq] at h
                  obtain ⟨hcont, hr⟩ := h
                  subst hr
                  obtain ⟨c₂, hdec, hcne, hclast, hcre⟩ := ih t₂ p₁ r₁ hsb
                  refine ⟨'\\' :: e :: c₂, ?_, by simp, ?_, ?_⟩
                  · rw [hdec]
                    simp
                  · have e2 : ('\\' :: e :: c₂) = ['\\', e] ++ c₂ := rfl
                    rw [e2, getLastD_append_right _ _ _ hcne, hclast]
                  · intro F' r' hF
                    obtain ⟨G, rfl⟩ : ∃ G, F' = G + 1 := ⟨F' - 1, by omega⟩
                    simp only [List.cons_append]
                    rw [psb_eval_bs]
                    rw [if_neg hu, hesc]
                    dsimp only
                    rw [hcre G r' (by simp at hF; omega)]
                    rw [← hcont]
                    rfl
        · have hqF : (c == '"') = false := Bool.eq_false_iff.mpr hq
          have hbsF : (c == '\\') = false := Bool.eq_false_iff.mpr hbs
          rw [psb_eval_other F c t hqF hbsF] at h
          by_cases hctl : c.toNat < 32
          · rw [if_pos hctl] at h
            exact Option.noConfusion h
          · rw [if_neg hctl] at h
            cases hsb : parseStringBody F t with
            | none => rw [hsb] at h; simp at h
            | some pr =>
              obtain ⟨p₁, r₁⟩ := pr
              rw [hsb] at h
              simp only [Option.map_some', Option.some.injEq, Prod.mk.injEq] at h
              obtain ⟨hcont, hr⟩ := h
              subst hr
              obtain ⟨c₂, hdec, hcne, hclast, hcre⟩ := ih t p₁ r₁ hsb
              refine ⟨c :: c₂, ?_, by simp, ?_, ?_⟩
              · rw [hdec]
                simp
              · have e1 : (c :: c₂) = [c] ++ c₂ := rfl
                rw [e1, getLastD_append_right _ _ _ hcne, hclast]
              · intro F' r' hF
                obtain ⟨G, rfl⟩ : ∃ G, F' = G + 1 := ⟨F' - 1, by omega⟩
                simp only [List.cons_append]
                rw [psb_eval_other G c _ hqF hbsF]
                rw [if_neg hctl]
                rw [hcre G r' (by simp at hF; omega)]
                rw [← hcont]
                rfl

theorem all_digit_getLastD (l : List Char) (d : Char) (hne : l ≠ [])
    (h : l.all Char.isDigit = true) : (l.getLastD d).isDigit = true := by
  induction l generalizing d with
  | nil => exact absurd rfl hne
  | cons c t ih =>
    simp only [List.all_cons, Bool.and_eq_true] at h
    cases t with
    | nil => exact h.1
    | cons e u =>
      rw [List.getLastD_cons]
      exact ih c (by simp) h.2

theorem digit_not_pyws (c : Char) (h : c.isDigit = true) : isPyWsB c = false := by
  have hn : 48 ≤ c.toNat ∧ c.toNat ≤ 57 := by
    simpa only [Char.isDigit, decide_eq_true_eq, Bool.and_eq_true] using h
  by_contra hmem
  rw [Bool.not_eq_false] at hmem
  have hm : c.toNat ∈ pyWsCodes := by
    have hmem' : pyWsCodes.contains c.toNat = true := hmem
    simpa using hmem'
  simp only [pyWsCodes, List.mem_cons, List.not_mem_nil, or_false] at hm
  rcases hm with h|h|h|h|h|h|h|h|h|h|h|h|h|h|h|h|h|h|h|h|h|h|h|h|h|h|h|h|h
  all_goals omega

theorem goodtail_char (x : Char)
    (h : (isJsonWsB x || x == ',' || x == ']' || x == rbraceC || x == ':') = true) :
    x.isDigit = false ∧ x ≠ '.' ∧ x ≠ 'e' ∧ x ≠ 'E' ∧ x ≠ '-' := by
  simp only [isJsonWsB, Bool.or_eq_true, beq_iff_eq] at h
  rcases h with ((((h | h) | h) | h) | h) | h
  · rcases h with (h | h) | h
    · subst h; exact ⟨rfl, by decide, by decide, by decide, by decide⟩
    · subst h; exact ⟨rfl, by decide, by decide, by decide, by decide⟩
    · subst h; exact ⟨rfl, by decide, by decide, by decide, by decide⟩
  · subst h; exact ⟨rfl, by decide, by decide, by decide, by decide⟩
  · subst h; exact ⟨rfl, by decide, by decide, by decide, by decide⟩
  · subst h; exact ⟨rfl, by decide, by decide, by decide, by decide⟩
  · rw [h]; exact ⟨rfl, by decide, by decide, by decide, by decide⟩
  · subst h; exact ⟨rfl, by decide, by decide, by decide, by decide⟩

theorem isEmpty_false_of_ne_nil (l : List Char) (h : l ≠ []) : l.isEmpty = false := by
  cases l with
  | nil => exact absurd rfl h
  | cons c t => rfl

theorem parseIntPart_spec (l : List Char) (ids r₁ : List Char)
    (h : parseIntPart l = some (ids, r₁)) :
    l = ids ++ r₁ ∧ ids ≠ [] ∧ ids.all Char.isDigit = true ∧
      ∀ r', (r' = [] ∨ (r'.headD ' ').isDigit = false) →
        parseIntPart (ids ++ r') = some (ids, r') := by
  cases l with
  | nil => simp [parseIntPart] at h
  | cons c t =>
    by_cases h0 : (c == '0') = true
    · have hc : c = '0' := beq_iff_eq.mp h0
      subst hc
      rw [show parseIntPart ('0' :: t) = some (['0'], t) from rfl] at h
      simp only [Option.some.injEq, Prod.mk.injEq] at h
      obtain ⟨hids, hr⟩ := h
      subst hids
      subst hr
      exact ⟨rfl, by simp, rfl, fun r' _ => rfl⟩
    · by_cases hdg : c.isDigit = true
      · have heval : parseIntPart (c :: t) =
            some (c :: t.takeWhile Char.isDigit, t.dropWhile Char.isDigit) := by
          simp only [parseIntPart]
          rw [if_neg h0, if_pos hdg]
        rw [heval] at h
        simp only [Option.some.injEq, Prod.mk.injEq] at h
        obtain ⟨hids, hr⟩ := h
        subst hr
        refine ⟨?_, ?_, ?_, ?_⟩
        · rw [← hids]
          simp [List.takeWhile_append_dropWhile]
        · rw [← hids]
          simp
        · rw [← hids]
          simp only [List.all_cons, Bool.and_eq_true]
          exact ⟨hdg, all_takeWhile _ _⟩
        · intro r' hb
          rw [← hids]
          have heval2 : parseIntPart (c :: (t.takeWhile Char.isDigit ++ r')) =
              some (c :: (t.takeWhile Char.isDigit ++ r').takeWhile Char.isDigit,
                (t.takeWhile Char.isDigit ++ r').dropWhile Char.isDigit) := by
            simp only [parseIntPart]
            rw [if_neg h0, if_pos hdg]
          rw [show (c :: t.takeWhile Char.isDigit) ++ r' =
              c :: (t.takeWhile Char.isDigit ++ r') from rfl]
          rw [heval2]
          obtain ⟨htw, hdw⟩ := takeWhile_all_append Char.isDigit
            (t.takeWhile Char.isDigit) r' (all_takeWhile _ _) hb
          rw [htw, hdw]
      · have : parseIntPart (c :: t) = none := by
          simp only [parseIntPart]
          rw [if_neg h0, if_neg hdg]
        rw [this] at h
        exact Option.noConfusion h

theorem parseFracPart_eval_other (c : Char) (t : List Char) (h : c ≠ '.') :
    parseFracPart (c :: t) = ([], c :: t) := by
  unfold parseFracPart
  split
  next u heq =>
    obtain ⟨hc, -⟩ := List.cons.injEq _ _ _ _ ▸ heq
    exact absurd hc h
  next => rfl

theorem parseFracPart_eval_dot (t : List Char) :
    parseFracPart ('.' :: t) =
      (if (t.takeWhile Char.isDigit).isEmpty = true then ([], '.' :: t)
       else ('.' :: t.takeWhile Char.isDigit, t.dropWhile Char.isDigit)) := rfl

theorem parseFracPart_spec (l fs r₂ : List Char) (h : parseFracPart l = (fs, r₂)) :
    l = fs ++ r₂ ∧ (fs = [] ∨ (fs ≠ [] ∧ fs.headD ' ' = '.' ∧
      (fs.getLastD ' ').isDigit = true ∧ (r₂ = [] ∨ (r₂.headD ' ').isDigit = false) ∧
      ∀ X, (X = [] ∨ (X.headD ' ').isDigit = false) → parseFracPart (fs ++ X) = (fs, X))) := by
  cases l with
  | nil =>
    rw [show parseFracPart [] = ([], []) from rfl] at h
    simp only [Prod.mk.injEq] at h
    obtain ⟨h1, h2⟩ := h
    subst h1
    subst h2
    exact ⟨rfl, Or.inl rfl⟩
  | cons c t =>
    by_cases hc : c = '.'
    · subst hc
      rw [parseFracPart_eval_dot] at h
      by_cases hemp : (t.takeWhile Char.isDigit).isEmpty = true
      · rw [if_pos hemp] at h
        simp only [Prod.mk.injEq] at h
        obtain ⟨h1, h2⟩ := h
        subst h1
        subst h2
        exact ⟨rfl, Or.inl rfl⟩
      · rw [if_neg hemp] at h
        simp only [Prod.mk.injEq] at h
        obtain ⟨h1, h2⟩ := h
        subst h1
        subst h2
        have htwne : t.takeWhile Char.isDigit ≠ [] := by
          intro hx
          rw [hx] at hemp
          exact hemp rfl
        refine ⟨?_, Or.inr ⟨by simp, rfl, ?_, head_dropWhile_false _ _, ?_⟩⟩
        · rw [show ('.' :: t.takeWhile Char.isDigit) ++ t.dropWhile Char.isDigit =
              '.' :: (t.takeWhile Char.isDigit ++ t.dropWhile Char.isDigit) from rfl]
          rw [List.takeWhile_append_dropWhile]
        · rw [List.getLastD_cons]
          exact all_digit_getLastD _ _ htwne (all_takeWhile _ _)
        · intro X hb
          rw [show ('.' :: t.takeWhile Char.isDigit) ++ X =
              '.' :: (t.takeWhile Char.isDigit ++ X) from rfl]
          rw [parseFracPart_eval_dot]
          obtain ⟨htw, hdw⟩ := takeWhile_all_append Char.isDigit
            (t.takeWhile Char.isDigit) X (all_takeWhile _ _) hb
          rw [htw, hdw]
          rw [if_neg (by rw [isEmpty_false_of_ne_nil _ htwne]; simp)]
    · rw [parseFracPart_eval_other c t hc] at h
      simp only [Prod.mk.injEq] at h
      obtain ⟨h1, h2⟩ := h
      subst h1
      subst h2
      exact ⟨rfl, Or.inl rfl⟩

theorem parseFracPart_rerun_none (X : List Char) (hb : X = [] ∨ X.headD ' ' ≠ '.') :
    parseFracPart X = ([], X) := by
  cases X with
  | nil => rfl
  | cons c t =>
    rcases hb with hb | hb
    · exact absurd hb (by simp)
    · exact parseFracPart_eval_other c t (by simpa using hb)

theorem digit_not_sign (c : Char) (h : c.isDigit = true) :
    (c == '+' || c == '-') = false := by
  have hn : 48 ≤ c.toNat ∧ c.toNat ≤ 57 := by
    simpa only [Char.isDigit, decide_eq_true_eq, Bool.and_eq_true] using h
  simp only [Bool.or_eq_false_iff, beq_eq_false_iff_ne]
  constructor <;> intro hx <;> rw [hx] at hn <;> revert hn <;> decide

theorem parseExpPart_eval₂ (e s : Char) (t₂ : List Char) :
    parseExpPart (e :: s :: t₂) =
      if e == 'e' || e == 'E' then
        if s == '+' || s == '-' then
          if (t₂.takeWhile Char.isDigit).isEmpty then ([], e :: s :: t₂)
          else (e :: s :: t₂.takeWhile Char.isDigit, t₂.dropWhile Char.isDigit)
        else
          if ((s :: t₂).takeWhile Char.isDigit).isEmpty then ([], e :: s :: t₂)
          else (e :: (s :: t₂).takeWhile Char.isDigit, (s :: t₂).dropWhile Char.isDigit)
      else ([], e :: s :: t₂) := rfl

theorem parseExpPart_spec (l es r₂ : List Char) (h : parseExpPart l = (es, r₂)) :
    l = es ++ r₂ ∧ (es = [] ∨ (es ≠ [] ∧ (es.headD ' ' = 'e' ∨ es.headD ' ' = 'E') ∧
      (es.getLastD ' ').isDigit = true ∧ (r₂ = [] ∨ (r₂.headD ' ').isDigit = false) ∧
      ∀ X, (X = [] ∨ (X.headD ' ').isDigit = false) → parseExpPart (es ++ X) = (es, X))) := by
  cases l with
  | nil =>
    rw [show parseExpPart [] = (([] : List Char), ([] : List Char)) from rfl] at h
    simp only [Prod.mk.injEq] at h
    obtain ⟨h1, h2⟩ := h
    subst h1
    subst h2
    exact ⟨rfl, Or.inl rfl⟩
  | cons e t =>
    dsimp only [parseExpPart] at h
    by_cases hee : (e == 'e' || e == 'E') = true
    · rw [if_pos hee] at h
      have headE : e = 'e' ∨ e = 'E' := by
        rcases Bool.or_eq_true_iff.mp hee with hx | hx
        · exact Or.inl (beq_iff_eq.mp hx)
        · exact Or.inr (beq_iff_eq.mp hx)
      cases t with
      | nil =>
        simp only [Prod.mk.injEq] at h
        obtain ⟨h1, h2⟩ := h
        subst h1
        subst h2
        exact ⟨rfl, Or.inl rfl⟩
      | cons s t₂ =>
        dsimp only at h
        by_cases hs : (s == '+' || s == '-') = true
        · rw [if_pos hs] at h
          by_cases hemp : (t₂.takeWhile Char.isDigit).isEmpty = true
          · rw [if_pos hemp] at h
            simp only [Prod.mk.injEq] at h
            obtain ⟨h1, h2⟩ := h
            subst h1
            subst h2
            exact ⟨rfl, Or.inl rfl⟩
          · rw [if_neg hemp] at h
            simp only [Prod.mk.injEq] at h
            obtain ⟨h1, h2⟩ := h
            subst h1
            subst h2
            have htwne : t₂.takeWhile Char.isDigit ≠ [] := by
              intro hx
              rw [hx] at hemp
              exact hemp rfl
            refine ⟨?_, Or.inr ⟨by simp, ?_, ?_, head_dropWhile_false _ _, ?_⟩⟩
            · rw [show (e :: s :: t₂.takeWhile Char.isDigit) ++ t₂.dropWhile Char.isDigit =
                  e :: s :: (t₂.takeWhile Char.isDigit ++ t₂.dropWhile Char.isDigit) from rfl]
              rw [List.takeWhile_append_dropWhile]
            · simpa using headE
            · rw [List.getLastD_cons, List.getLastD_cons]
              exact all_digit_getLastD _ _ htwne (all_takeWhile _ _)
            · intro X hb
              rw [show (e :: s :: t₂.takeWhile Char.isDigit) ++ X =
                  e :: s :: (t₂.takeWhile Char.isDigit ++ X) from rfl]
              dsimp only [parseExpPart]
              rw [if_pos hee, if_pos hs]
              obtain ⟨htw, hdw⟩ := takeWhile_all_append Char.isDigit
                (t₂.takeWhile Char.isDigit) X (all_takeWhile _ _) hb
              rw [htw, hdw]
              rw [if_neg (by rw [isEmpty_false_of_ne_nil _ htwne]; simp)]
        · rw [if_neg hs] at h
          by_cases hemp : ((s :: t₂).takeWhile Char.isDigit).isEmpty = true
          · rw [if_pos hemp] at h
            simp only [Prod.mk.injEq] at h
            obtain ⟨h1, h2⟩ := h
            subst h1
            subst h2
            exact ⟨rfl, Or.inl rfl⟩
          · rw [if_neg hemp] at h
            simp only [Prod.mk.injEq] at h
            obtain ⟨h1, h2⟩ := h
            subst h1
            subst h2
            have htwne : (s :: t₂).takeWhile Char.isDigit ≠ [] := by
              intro hx
              rw [hx] at hemp
              exact hemp rfl
            refine ⟨?_, Or.inr ⟨by simp, ?_, ?_, head_dropWhile_false _ _, ?_⟩⟩
            · rw [show (e :: (s :: t₂).takeWhile Char.isDigit) ++
                  (s :: t₂).dropWhile Char.isDigit =
                  e :: ((s :: t₂).takeWhile Char.isDigit ++
                    (s :: t₂).dropWhile Char.isDigit) from rfl]
              rw [List.takeWhile_append_dropWhile]
            · simpa using headE
            · rw [List.getLastD_cons]
              exact all_digit_getLastD _ _ htwne (all_takeWhile _ _)
            · intro X hb
              obtain ⟨htw, hdw⟩ := takeWhile_all_append Char.isDigit
                ((s :: t₂).takeWhile Char.isDigit) X (all_takeWhile _ _) hb
              cases hw : (s :: t₂).takeWhile Char.isDigit with
              | nil => exact absurd hw htwne
              | cons w₀ w₁ =>
                have hw₀ : w₀.isDigit = true := by
                  have hall := all_takeWhile Char.isDigit (s :: t₂)
                  rw [hw] at hall
                  simp only [List.all_cons, Bool.and_eq_true] at hall
                  exact hall.1
                rw [hw] at htw hdw
                rw [List.cons_append] at htw hdw
                rw [show (e :: w₀ :: w₁) ++ X = e :: w₀ :: (w₁ ++ X) from rfl]
                rw [parseExpPart_eval₂]
                rw [if_pos hee]
                rw [if_neg (by rw [digit_not_sign w₀ hw₀]; simp)]
                rw [htw, hdw]
                rw [if_neg (by simp)]
    · rw [if_neg hee] at h
      simp only [Prod.mk.injEq] at h
      obtain ⟨h1, h2⟩ := h
      subst h1
      subst h2
      exact ⟨rfl, Or.inl rfl⟩

theorem parseExpPart_rerun_none (X : List Char)
    (hb : X = [] ∨ (X.headD ' ' ≠ 'e' ∧ X.headD ' ' ≠ 'E')) : parseExpPart X = ([], X) := by
  cases X with
  | nil => rfl
  | cons c t =>
    rcases hb with hb | hb
    · exact absurd hb (by simp)
    · simp only [List.headD_cons] at hb
      dsimp only [parseExpPart]
      rw [if_neg ?_]
      simp only [Bool.or_eq_true, beq_iff_eq]
      rintro (rfl | rfl)
      · exact hb.1 rfl
      · exact hb.2 rfl

theorem headD_append_left (a b : List Char) (d : Char) (h : a ≠ []) :
    (a ++ b).headD d = a.headD d := by
  cases a with
  | nil => exact absurd rfl h
  | cons x t => rfl

theorem goodtail_number_tail (X : List Char) (hX : GoodTail X) :
    X = [] ∨ ((X.headD ' ').isDigit = false ∧ X.headD ' ' ≠ '.' ∧
      X.headD ' ' ≠ 'e' ∧ X.headD ' ' ≠ 'E') := by
  rcases hX with h | h
  · exact Or.inl h
  · obtain ⟨h1, h2, h3, h4, -⟩ := goodtail_char _ h
    exact Or.inr ⟨h1, h2, h3, h4⟩

theorem numAfterSign_master (neg : Bool) (l : List Char) (v : PyNum) (r : List Char)
    (h : numAfterSign neg l = some (v, r)) :
    ∃ c, l = c ++ r ∧ c ≠ [] ∧ (c.headD ' ').isDigit = true ∧
      (c.getLastD ' ').isDigit = true ∧
      ∀ X, GoodTail X → numAfterSign neg (c ++ X) = some (v, X) := by
  unfold numAfterSign at h
  cases hip : parseIntPart l with
  | none => rw [hip] at h; exact Option.noConfusion h
  | some p =>
    obtain ⟨ids, r₁⟩ := p
    rw [hip] at h
    dsimp only at h
    obtain ⟨fs, r₂, hfp⟩ : ∃ fs r₂, parseFracPart r₁ = (fs, r₂) := ⟨_, _, rfl⟩
    rw [hfp] at h
    dsimp only at h
    obtain ⟨es, r₃, hep⟩ : ∃ es r₃, parseExpPart r₂ = (es, r₃) := ⟨_, _, rfl⟩
    rw [hep] at h
    dsimp only at h
    obtain ⟨hl₁, hidne, hidall, hirerun⟩ := parseIntPart_spec l ids r₁ hip
    obtain ⟨hr₁, hfsd⟩ := parseFracPart_spec r₁ fs r₂ hfp
    obtain ⟨hr₂, hesd⟩ := parseExpPart_spec r₂ es r₃ hep
    have hvr : r = r₃ ∧ ∀ Y : List Char,
        (if fs.isEmpty && es.isEmpty then
          (if neg then some (PyNum.int (-(digitsToNat ids : Int)), Y)
           else some (PyNum.int (digitsToNat ids : Int), Y))
         else
          (if neg then some (PyNum.float (String.mk ('-' :: ids ++ fs ++ es)), Y)
           else some (PyNum.float (String.mk (ids ++ fs ++ es)), Y))) = some (v, Y) := by
      by_cases hcond : (fs.isEmpty && es.isEmpty) = true
      · rw [if_pos hcond] at h
        cases neg with
        | false =>
          rw [if_neg (by simp)] at h
          simp only [Option.some.injEq, Prod.mk.injEq] at h
          obtain ⟨hv, hr3⟩ := h
          refine ⟨hr3.symm, fun Y => ?_⟩
          rw [if_pos hcond, if_neg (by simp), hv]
        | true =>
          rw [if_pos rfl] at h
          simp only [Option.some.injEq, Prod.mk.injEq] at h
          obtain ⟨hv, hr3⟩ := h
          refine ⟨hr3.symm, fun Y => ?_⟩
          rw [if_pos hcond, if_pos rfl, hv]
      · rw [if_neg hcond] at h
        cases neg with
        | false =>
          rw [if_neg (by simp)] at h
          simp only [Option.some.injEq, Prod.mk.injEq] at h
          obtain ⟨hv, hr3⟩ := h
          refine ⟨hr3.symm, fun Y => ?_⟩
          rw [if_neg hcond, if_neg (by simp), hv]
        | true =>
          rw [if_pos rfl] at h
          simp only [Option.some.injEq, Prod.mk.injEq] at h
          obtain ⟨hv, hr3⟩ := h
          refine ⟨hr3.symm, fun Y => ?_⟩
          rw [if_neg hcond, if_pos rfl, hv]
    obtain ⟨hrr₃, hfun⟩ := hvr
    subst hrr₃
    refine ⟨ids ++ (fs ++ es), ?_, ?_, ?_, ?_, ?_⟩
    · rw [hl₁, hr₁, hr₂]
      simp [List.append_assoc]
    · cases ids with
      | nil => exact absurd rfl hidne
      | cons a t => simp
    · rw [headD_append_left _ _ _ hidne]
      cases ids with
      | nil => exact absurd rfl hidne
      | cons a t =>
        simp only [List.all_cons, Bool.and_eq_true] at hidall
        simp only [List.headD_cons]
        exact hidall.1
    · rcases hesd with hes0 | ⟨hene, -, helast, -, -⟩
      · subst hes0
        rcases hfsd with hfs0 | ⟨hfne, -, hflast, -, -⟩
        · subst hfs0
          simp only [List.append_nil]
          exact all_digit_getLastD ids ' ' hidne hidall
        · rw [List.append_nil]
          rw [getLastD_append_right ids fs ' ' hfne]
          exact hflast
      · rw [show ids ++ (fs ++ es) = (ids ++ fs) ++ es by simp]
        rw [getLastD_append_right _ es ' ' hene]
        exact helast
    · intro X hX
      have hnt := goodtail_number_tail X hX
      have hXe : X = [] ∨ ((X.headD ' ').isDigit = false) := by
        rcases hnt with h0 | ⟨h1, -, -, -⟩
        · exact Or.inl h0
        · exact Or.inr h1
      have h3 : parseExpPart (es ++ X) = (es, X) := by
        rcases hesd with hes0 | ⟨-, -, -, -, hrerun⟩
        · subst hes0
          rw [List.nil_append]
          apply parseExpPart_rerun_none
          rcases hnt with h0 | ⟨-, -, h3, h4⟩
          · exact Or.inl h0
          · exact Or.inr ⟨h3, h4⟩
        · exact hrerun X hXe
      have hesX : es ++ X = [] ∨ ((es ++ X).headD ' ').isDigit = false := by
        rcases hesd with hes0 | ⟨hene, hehead, -, -, -⟩
        · subst hes0
          simpa using hXe
        · right
          rw [headD_append_left _ _ _ hene]
          rcases hehead with he | he <;> rw [he] <;> decide
      have h2 : parseFracPart (fs ++ (es ++ X)) = (fs, es ++ X) := by
        rcases hfsd with hfs0 | ⟨-, -, -, -, hrerun⟩
        · subst hfs0
          rw [List.nil_append]
          apply parseFracPart_rerun_none
          rcases hesd with hes0 | ⟨hene, hehead, -, -, -⟩
          · subst hes0
            rw [List.nil_append]
            rcases hnt with h0 | ⟨-, h2, -, -⟩
            · exact Or.inl h0
            · exact Or.inr h2
          · right
            rw [headD_append_left _ _ _ hene]
            rcases hehead with he | he <;> rw [he] <;> decide
        · exact hrerun (es ++ X) hesX
      have h1 : parseIntPart ((ids ++ (fs ++ es)) ++ X) = some (ids, fs ++ (es ++ X)) := by
        rw [List.append_assoc, List.append_assoc]
        refine hirerun _ ?_
        rcases hfsd with hfs0 | ⟨hfne, hfhead, -, -, -⟩
        · subst hfs0
          rw [List.nil_append]
          exact hesX
        · right
          rw [headD_append_left _ _ _ hfne]
          rw [hfhead]
          decide
      unfold numAfterSign
      rw [h1]
      dsimp only
      rw [h2]
      dsimp only
      rw [h3]
      dsimp only
      exact hfun X

theorem pn_eval_neg (t : List Char) : parseNumber ('-' :: t) = numAfterSign true t := rfl

theorem pn_eval_other (c : Char) (t : List Char) (h : c ≠ '-') :
    parseNumber (c :: t) = numAfterSign false (c :: t) := by
  unfold parseNumber
  split
  next t' heq =>
    obtain ⟨hc, -⟩ := List.cons.injEq _ _ _ _ ▸ heq
    exact absurd hc h
  next => rfl

theorem digit_ne_minus (c : Char) (h : c.isDigit = true) : c ≠ '-' := by
  have := digit_not_sign c h
  simp only [Bool.or_eq_false_iff, beq_eq_false_iff_ne] at this
  exact this.2

theorem parseNumber_master (l : List Char) (v : PyNum) (r : List Char)
    (h : parseNumber l = some (v, r)) :
    ∃ c, l = c ++ r ∧ c ≠ [] ∧
      (c.headD ' ' = '-' ∨ (c.headD ' ').isDigit = true) ∧
      isPyWsB (c.headD ' ') = false ∧ isPyWsB (c.getLastD ' ') = false ∧
      (∀ u, c = '-' :: u → u ≠ [] ∧ (u.headD ' ').isDigit = true) ∧
      ∀ X, GoodTail X → parseNumber (c ++ X) = some (v, X) := by
  cases l with
  | nil =>
    rw [show parseNumber [] = none from rfl] at h
    exact Option.noConfusion h
  | cons c₁ t =>
    by_cases hm : c₁ = '-'
    · subst hm
      rw [pn_eval_neg] at h
      obtain ⟨c₀, hdec, hne, hhead, hlast, hrerun⟩ := numAfterSign_master true t v r h
      refine ⟨'-' :: c₀, ?_, by simp, Or.inl rfl, ?_, ?_, ?_, ?_⟩
      · rw [hdec, List.cons_append]
      · rfl
      · cases c₀ with
        | nil => exact absurd rfl hne
        | cons b u =>
          rw [List.getLastD_cons, getLastD_default_irrel b u '-' ' ']
          exact digit_not_pyws _ hlast
      · intro u hu
        injection hu with hu1 hu2
        subst hu2
        exact ⟨hne, hhead⟩
      · intro X hX
        rw [show ('-' :: c₀) ++ X = '-' :: (c₀ ++ X) from rfl, pn_eval_neg]
        exact hrerun X hX
    · rw [pn_eval_other c₁ t hm] at h
      obtain ⟨c₀, hdec, hne, hhead, hlast, hrerun⟩ := numAfterSign_master false (c₁ :: t) v r h
      refine ⟨c₀, hdec, hne, Or.inr hhead, digit_not_pyws _ hhead, digit_not_pyws _ hlast,
        ?_, ?_⟩
      · intro u hu
        rw [hu] at hhead
        simp only [List.headD_cons] at hhead
        exact absurd hhead (by decide)
      intro X hX
      cases c₀ with
      | nil => exact absurd rfl hne
      | cons b u =>
        have hb : b.isDigit = true := by simpa using hhead
        rw [List.cons_append, pn_eval_other b (u ++ X) (digit_ne_minus b hb)]
        rw [← List.cons_append]
        exact hrerun X hX

theorem not_pyws_not_jsonws (c : Char) (h : isPyWsB c = false) : isJsonWsB c = false := by
  by_contra hx
  rw [Bool.not_eq_false] at hx
  rw [jsonWs_pyWs c hx] at h
  exact Bool.noConfusion h

theorem goodTail_of_head (x : Char) (r : List Char)
    (hx : (isJsonWsB x || x == ',' || x == ']' || x == rbraceC || x == ':') = true) :
    GoodTail (x :: r) := by
  right
  simpa using hx

theorem goodTail_append_ws (w r : List Char) (hw : w.all isJsonWsB = true)
    (hr : GoodTail r) : GoodTail (w ++ r) := by
  cases w with
  | nil => simpa using hr
  | cons x u =>
    simp only [List.all_cons, Bool.and_eq_true] at hw
    right
    rw [List.cons_append, List.headD_cons, hw.1]
    rfl

theorem pv_eval_quote (G : Nat) (t : List Char) :
    parseVal (G + 1) ('"' :: t) =
      (parseStringBody (t.length + 1) t).map
        (fun p => (JVal.str (String.mk p.1), p.2)) := rfl

theorem pv_eval_obj (G : Nat) (t : List Char) :
    parseVal (G + 1) (lbraceC :: t) =
      (match skipWs t with
       | [] => none
       | u0 :: urest =>
         if u0 == rbraceC then some (JVal.obj [], urest)
         else (parseMembers G (u0 :: urest)).map (fun p => (JVal.obj p.1, p.2))) := rfl

theorem pv_eval_arr (G : Nat) (t : List Char) :
    parseVal (G + 1) ('[' :: t) =
      (match skipWs t with
       | [] => none
       | u0 :: urest =>
         if u0 == ']' then some (JVal.arr [], urest)
         else (parseElems G (u0 :: urest)).map (fun p => (JVal.arr p.1, p.2))) := rfl

theorem pv_eval_n (G : Nat) (t : List Char) :
    parseVal (G + 1) ('n' :: t) =
      (match t with
       | 'u' :: 'l' :: 'l' :: t₂ => some (JVal.null, t₂)
       | _ => none) := rfl

theorem pv_eval_t (G : Nat) (t : List Char) :
    parseVal (G + 1) ('t' :: t) =
      (match t with
       | 'r' :: 'u' :: 'e' :: t₂ => some (JVal.bool true, t₂)
       | _ => none) := rfl

theorem pv_eval_f (G : Nat) (t : List Char) :
    parseVal (G + 1) ('f' :: t) =
      (match t with
       | 'a' :: 'l' :: 's' :: 'e' :: t₂ => some (JVal.bool false, t₂)
       | _ => none) := rfl

theorem pv_eval_bigN (G : Nat) (t : List Char) :
    parseVal (G + 1) ('N' :: t) =
      (match t with
       | 'a' :: 'N' :: t₂ => some (JVal.num PyNum.nan, t₂)
       | _ => none) := rfl

theorem pv_eval_bigI (G : Nat) (t : List Char) :
    parseVal (G + 1) ('I' :: t) =
      (match t with
       | 'n' :: 'f' :: 'i' :: 'n' :: 'i' :: 't' :: 'y' :: t₂ =>
         some (JVal.num PyNum.inf, t₂)
       | _ => none) := rfl

theorem pv_eval_minus_full (G : Nat) (t : List Char) :
    parseVal (G + 1) ('-' :: t) =
      (match t with
       | 'I' :: 'n' :: 'f' :: 'i' :: 'n' :: 'i' :: 't' :: 'y' :: t₂ =>
         some (JVal.num PyNum.ninf, t₂)
       | _ => (parseNumber ('-' :: t)).map (fun p => (JVal.num p.1, p.2))) := rfl

theorem pv_eval_minus_num (G : Nat) (t : List Char) (hne : t.headD ' ' ≠ 'I') :
    parseVal (G + 1) ('-' :: t) =
      (parseNumber ('-' :: t)).map (fun p => (JVal.num p.1, p.2)) := by
  rw [pv_eval_minus_full]
  split
  next t₂ => exact absurd rfl hne
  next => rfl

theorem digit_ne_starters (d : Char) (hd : d.isDigit = true) :
    (d == '"') = false ∧ (d == lbraceC) = false ∧ (d == '[') = false ∧
    (d == 'n') = false ∧ (d == 't') = false ∧ (d == 'f') = false ∧
    (d == 'N') = false ∧ (d == 'I') = false ∧ (d == '-') = false := by
  have hn : 48 ≤ d.toNat ∧ d.toNat ≤ 57 := by
    simpa only [Char.isDigit, decide_eq_true_eq, Bool.and_eq_true] using hd
  refine ⟨?_, ?_, ?_, ?_, ?_, ?_, ?_, ?_, ?_⟩ <;>
    · simp only [beq_eq_false_iff_ne]
      intro hx
      rw [hx] at hn
      revert hn
      decide

theorem pv_eval_digit (G : Nat) (d : Char) (t : List Char) (hd : d.isDigit = true) :
    parseVal (G + 1) (d :: t) =
      (parseNumber (d :: t)).map (fun p => (JVal.num p.1, p.2)) := by
  obtain ⟨h1, h2, h3, h4, h5, h6, h7, h8, h9⟩ := digit_ne_starters d hd
  dsimp only [parseVal]
  rw [if_neg (by rw [h1]; simp), if_neg (by rw [h2]; simp), if_neg (by rw [h3]; simp),
    if_neg (by rw [h4]; simp), if_neg (by rw [h5]; simp), if_neg (by rw [h6]; simp),
    if_neg (by rw [h7]; simp), if_neg (by rw [h8]; simp), if_neg (by rw [h9]; simp)]

theorem pm_eval_quote (G : Nat) (t : List Char) :
    parseMembers (G + 1) ('"' :: t) =
      (match parseStringBody (t.length + 1) t with
       | none => none
       | some (k, r₁) =>
         match skipWs r₁ with
         | [] => none
         | co :: r₂ =>
           if co == ':' then
             match parseVal G (skipWs r₂) with
             | none => none
             | some (v, r₃) =>
               match skipWs r₃ with
               | [] => none
               | sep :: r₄ =>
                 if sep == ',' then
                   (parseMembers G (skipWs r₄)).map
                     (fun p => ((String.mk k, v) :: p.1, p.2))
                 else if sep == rbraceC then
                   some ([(String.mk k, v)], r₄)
                 else none
           else none) := rfl

theorem pe_eval (G : Nat) (l : List Char) :
    parseElems (G + 1) l =
      (match parseVal G l with
       | none => none
       | some (v, r) =>
         match skipWs r with
         | [] => none
         | sep :: r₂ =>
           if sep == ',' then
             (parseElems G (skipWs r₂)).map (fun p => (v :: p.1, p.2))
           else if sep == ']' then
             some ([v], r₂)
           else none) := rfl

theorem append_ne_nil_right (x y : List Char) (hy : y ≠ []) : x ++ y ≠ [] := by
  intro hz
  exact hy (List.append_eq_nil.mp hz).2

theorem append_ne_nil_left (x y : List Char) (hx : x ≠ []) : x ++ y ≠ [] := by
  intro hz
  exact hx (List.append_eq_nil.mp hz).1

theorem skipWs_cons_head (r₁ : List Char) (co : Char) (r₂ : List Char)
    (h : skipWs r₁ = co :: r₂) : isJsonWsB co = false := by
  have hh := head_dropWhile_false isJsonWsB r₁
  rw [show r₁.dropWhile isJsonWsB = skipWs r₁ from rfl, h] at hh
  rcases hh with h0 | h0
  · exact absurd h0 (by simp)
  · simpa using h0

theorem parse_master : ∀ F,
    (∀ l v r, parseVal F l = some (v, r) →
      ∃ c, l = c ++ r ∧ c ≠ [] ∧ isPyWsB (c.headD ' ') = false ∧
        isPyWsB (c.getLastD ' ') = false ∧
        ∀ F' X, GoodTail X → 2 * c.length + 1 ≤ F' →
          parseVal F' (c ++ X) = some (v, X)) ∧
    (∀ l kvs r, parseMembers F l = some (kvs, r) →
      ∃ c, l = c ++ r ∧ c ≠ [] ∧ isPyWsB (c.headD ' ') = false ∧
        isPyWsB (c.getLastD ' ') = false ∧
        ∀ F' X, GoodTail X → 2 * c.length + 1 ≤ F' →
          parseMembers F' (c ++ X) = some (kvs, X)) ∧
    (∀ l vs r, parseElems F l = some (vs, r) →
      ∃ c, l = c ++ r ∧ c ≠ [] ∧ isPyWsB (c.headD ' ') = false ∧
        isPyWsB (c.getLastD ' ') = false ∧
        ∀ F' X, GoodTail X → 2 * c.length + 1 ≤ F' →
          parseElems F' (c ++ X) = some (vs, X)) := by
  intro F
  induction F with
  | zero =>
    refine ⟨?_, ?_, ?_⟩
    · intro l v r h
      rw [show parseVal 0 l = none from rfl] at h
      exact Option.noConfusion h
    · intro l kvs r h
      rw [show parseMembers 0 l = none from rfl] at h
      exact Option.noConfusion h
    · intro l vs r h
      rw [show parseElems 0 l = none from rfl] at h
      exact Option.noConfusion h
  | succ F ih =>
    obtain ⟨ihv, ihm, ihe⟩ := ih
    refine ⟨?_, ?_, ?_⟩
    · intro l v r h
      cases l with
      | nil =>
        rw [show parseVal (F + 1) [] = none from rfl] at h
        exact Option.noConfusion h
      | cons ch t =>
        by_cases h1 : (ch == '"') = true
        · have hch := beq_iff_eq.mp h1
          subst hch
          rw [pv_eval_quote] at h
          cases hsb : parseStringBody (t.length + 1) t with
          | none => rw [hsb] at h; exact Option.noConfusion h
          | some p =>
            obtain ⟨cont, r₁⟩ := p
            rw [hsb, Option.map_some'] at h
            simp only [Option.some.injEq, Prod.mk.injEq] at h
            obtain ⟨hv, hr⟩ := h
            subst hv
            subst hr
            obtain ⟨ck, hkdec, hkne, hklast, hkrerun⟩ := SB_master (t.length + 1) t cont r₁ hsb
            refine ⟨'"' :: ck, ?_, by simp, rfl, ?_, ?_⟩
            · rw [hkdec, List.cons_append]
            · cases ck with
              | nil => exact absurd rfl hkne
              | cons b u =>
                rw [List.getLastD_cons, getLastD_default_irrel b u '"' ' ', hklast]
                rfl
            · intro F' X hX hF
              obtain ⟨G, rfl⟩ : ∃ G, F' = G + 1 := ⟨F' - 1, by omega⟩
              rw [List.cons_append, pv_eval_quote]
              rw [hkrerun ((ck ++ X).length + 1) X (by simp only [List.length_append]; omega)]
              rfl
        · by_cases h2 : (ch == lbraceC) = true
          · have hch := beq_iff_eq.mp h2
            subst hch
            rw [pv_eval_obj] at h
            have hsplit : t.takeWhile isJsonWsB ++ skipWs t = t := by
              unfold skipWs
              simp [List.takeWhile_append_dropWhile]
            cases hsw : skipWs t with
            | nil => rw [hsw] at h; exact Option.noConfusion h
            | cons u0 urest =>
              rw [hsw] at h
              dsimp only at h
              by_cases hu : (u0 == rbraceC) = true
              · rw [if_pos hu] at h
                have hu' := beq_iff_eq.mp hu
                subst hu'
                simp only [Option.some.injEq, Prod.mk.injEq] at h
                obtain ⟨hv, hr⟩ := h
                subst hv
                subst hr
                refine ⟨lbraceC :: (t.takeWhile isJsonWsB ++ ([rbraceC] : List Char)), ?_,
                  by simp, rfl, ?_, ?_⟩
                · simp only [List.cons_append, List.append_assoc, List.singleton_append,
                    List.nil_append]
                  rw [← hsw, hsplit]
                · rw [List.getLastD_cons,
                    getLastD_append_right _ _ _ (List.cons_ne_nil _ _)]
                  rfl
                · intro F' X hX hF
                  obtain ⟨G, rfl⟩ : ∃ G, F' = G + 1 := ⟨F' - 1, by omega⟩
                  rw [List.cons_append, pv_eval_obj]
                  simp only [List.append_assoc, List.singleton_append, List.cons_append,
                    List.nil_append]
                  rw [skipWs_all_append (t.takeWhile isJsonWsB) (rbraceC :: X)
                    (all_takeWhile _ _) (Or.inr rfl)]
                  dsimp only
                  rw [if_pos (by rfl)]
              · rw [if_neg hu] at h
                cases hpm : parseMembers F (u0 :: urest) with
                | none => rw [hpm] at h; exact Option.noConfusion h
                | some q =>
                  obtain ⟨kvs, r₁⟩ := q
                  rw [hpm, Option.map_some'] at h
                  simp only [Option.some.injEq, Prod.mk.injEq] at h
                  obtain ⟨hv, hr⟩ := h
                  subst hv
                  subst hr
                  obtain ⟨cm, hmdec, hmne, hmhead, hmlast, hmrerun⟩ :=
                    ihm (u0 :: urest) kvs r₁ hpm
                  refine ⟨lbraceC :: (t.takeWhile isJsonWsB ++ cm), ?_, by simp, rfl, ?_, ?_⟩
                  · simp only [List.cons_append, List.append_assoc]
                    rw [← hmdec, ← hsw, hsplit]
                  · cases cm with
                    | nil => exact absurd rfl hmne
                    | cons m0 mr =>
                      rw [List.getLastD_cons,
                        getLastD_append_right _ _ _ (List.cons_ne_nil _ _),
                        getLastD_default_irrel m0 mr lbraceC ' ']
                      exact hmlast
                  · intro F' X hX hF
                    obtain ⟨G, rfl⟩ : ∃ G, F' = G + 1 := ⟨F' - 1, by omega⟩
                    rw [List.cons_append, pv_eval_obj]
                    simp only [List.append_assoc]
                    rw [skipWs_all_append (t.takeWhile isJsonWsB) (cm ++ X)
                      (all_takeWhile _ _)
                      (Or.inr (by
                        rw [headD_append_left _ _ _ hmne]
                        exact not_pyws_not_jsonws _ hmhead))]
                    cases cm with
                    | nil => exact absurd rfl hmne
                    | cons m0 mr =>
                      rw [List.cons_append]
                      dsimp only
                      have hm0 : u0 = m0 := by
                        rw [List.cons_append, List.cons.injEq] at hmdec
                        exact hmdec.1
                      rw [if_neg (by rw [← hm0]; exact hu)]
                      rw [← List.cons_append, hmrerun G X hX (by
                        simp only [List.length_cons, List.length_append] at hF ⊢
                        omega)]
                      rfl
          · by_cases h3 : (ch == '[') = true
            · have hch := beq_iff_eq.mp h3
              subst hch
              rw [pv_eval_arr] at h
              have hsplit : t.takeWhile isJsonWsB ++ skipWs t = t := by
                unfold skipWs
                simp [List.takeWhile_append_dropWhile]
              cases hsw : skipWs t with
              | nil => rw [hsw] at h; exact Option.noConfusion h
              | cons u0 urest =>
                rw [hsw] at h
                dsimp only at h
                by_cases hu : (u0 == ']') = true
                · rw [if_pos hu] at h
                  have hu' := beq_iff_eq.mp hu
                  subst hu'
                  simp only [Option.some.injEq, Prod.mk.injEq] at h
                  obtain ⟨hv, hr⟩ := h
                  subst hv
                  subst hr
                  refine ⟨'[' :: (t.takeWhile isJsonWsB ++ ([']'] : List Char)), ?_,
                    by simp, rfl, ?_, ?_⟩
                  · simp only [List.cons_append, List.append_assoc, List.singleton_append,
                      List.nil_append]
                    rw [← hsw, hsplit]
                  · rw [List.getLastD_cons,
                      getLastD_append_right _ _ _ (List.cons_ne_nil _ _)]
                    rfl
                  · intro F' X hX hF
                    obtain ⟨G, rfl⟩ : ∃ G, F' = G + 1 := ⟨F' - 1, by omega⟩
                    rw [List.cons_append, pv_eval_arr]
                    simp only [List.append_assoc, List.singleton_append, List.cons_append,
                      List.nil_append]
                    rw [skipWs_all_append (t.takeWhile isJsonWsB) (']' :: X)
                      (all_takeWhile _ _) (Or.inr rfl)]
                    dsimp only
                    rw [if_pos (by rfl)]
                · rw [if_neg hu] at h
                  cases hpe : parseElems F (u0 :: urest) with
                  | none => rw [hpe] at h; exact Option.noConfusion h
                  | some q =>
                    obtain ⟨vs, r₁⟩ := q
                    rw [hpe, Option.map_some'] at h
                    simp only [Option.some.injEq, Prod.mk.injEq] at h
                    obtain ⟨hv, hr⟩ := h
                    subst hv
                    subst hr
                    obtain ⟨ce, hedec, hene, hehead, helast, hererun⟩ :=
                      ihe (u0 :: urest) vs r₁ hpe
                    refine ⟨'[' :: (t.takeWhile isJsonWsB ++ ce), ?_, by simp, rfl, ?_, ?_⟩
                    · simp only [List.cons_append, List.append_assoc]
                      rw [← hedec, ← hsw, hsplit]
                    · cases ce with
                      | nil => exact absurd rfl hene
                      | cons e0 er =>
                        rw [List.getLastD_cons,
                          getLastD_append_right _ _ _ (List.cons_ne_nil _ _),
                          getLastD_default_irrel e0 er '[' ' ']
                        exact helast
                    · intro F' X hX hF
                      obtain ⟨G, rfl⟩ : ∃ G, F' = G + 1 := ⟨F' - 1, by omega⟩
                      rw [List.cons_append, pv_eval_arr]
                      simp only [List.append_assoc]
                      rw [skipWs_all_append (t.takeWhile isJsonWsB) (ce ++ X)
                        (all_takeWhile _ _)
                        (Or.inr (by
                          rw [headD_append_left _ _ _ hene]
                          exact not_pyws_not_jsonws _ hehead))]
                      cases ce with
                      | nil => exact absurd rfl hene
                      | cons e0 er =>
                        rw [List.cons_append]
                        dsimp only
                        have he0 : u0 = e0 := by
                          rw [List.cons_append, List.cons.injEq] at hedec
                          exact hedec.1
                        rw [if_neg (by rw [← he0]; exact hu)]
                        rw [← List.cons_append, hererun G X hX (by
                          simp only [List.length_cons, List.length_append] at hF ⊢
                          omega)]
                        rfl
            · by_cases h4 : (ch == 'n') = true
              · have hch := beq_iff_eq.mp h4
                subst hch
                rw [pv_eval_n] at h
                split at h
                next t₂ =>
                  simp only [Option.some.injEq, Prod.mk.injEq] at h
                  obtain ⟨hv, hr⟩ := h
                  subst hv
                  subst hr
                  refine ⟨['n', 'u', 'l', 'l'], rfl, by simp, rfl, rfl, ?_⟩
                  intro F' X hX hF
                  obtain ⟨G, rfl⟩ : ∃ G, F' = G + 1 := ⟨F' - 1, by omega⟩
                  rfl
                next => exact Option.noConfusion h
              · by_cases h5 : (ch == 't') = true
                · have hch := beq_iff_eq.mp h5
                  subst hch
                  rw [pv_eval_t] at h
                  split at h
                  next t₂ =>
                    simp only [Option.some.injEq, Prod.mk.injEq] at h
                    obtain ⟨hv, hr⟩ := h
                    subst hv
                    subst hr
                    refine ⟨['t', 'r', 'u', 'e'], rfl, by simp, rfl, rfl, ?_⟩
                    intro F' X hX hF
                    obtain ⟨G, rfl⟩ : ∃ G, F' = G + 1 := ⟨F' - 1, by omega⟩
                    rfl
                  next => exact Option.noConfusion h
                · by_cases h6 : (ch == 'f') = true
                  · have hch := beq_iff_eq.mp h6
                    subst hch
                    rw [pv_eval_f] at h
                    split at h
                    next t₂ =>
                      simp only [Option.some.injEq, Prod.mk.injEq] at h
                      obtain ⟨hv, hr⟩ := h
                      subst hv
                      subst hr
                      refine ⟨['f', 'a', 'l', 's', 'e'], rfl, by simp, rfl, rfl, ?_⟩
                      intro F' X hX hF
                      obtain ⟨G, rfl⟩ : ∃ G, F' = G + 1 := ⟨F' - 1, by omega⟩
                      rfl
                    next => exact Option.noConfusion h
                  · by_cases h7 : (ch == 'N') = true
                    · have hch := beq_iff_eq.mp h7
                      subst hch
                      rw [pv_eval_bigN] at h
                      split at h
                      next t₂ =>
                        simp only [Option.some.injEq, Prod.mk.injEq] at h
                        obtain ⟨hv, hr⟩ := h
                        subst hv
                        subst hr
                        refine ⟨['N', 'a', 'N'], rfl, by simp, rfl, rfl, ?_⟩
                        intro F' X hX hF
                        obtain ⟨G, rfl⟩ : ∃ G, F' = G + 1 := ⟨F' - 1, by omega⟩
                        rfl
                      next => exact Option.noConfusion h
                    · by_cases h8 : (ch == 'I') = true
                      · have hch := beq_iff_eq.mp h8
                        subst hch
                        rw [pv_eval_bigI] at h
                        split at h
                        next t₂ =>
                          simp only [Option.some.injEq, Prod.mk.injEq] at h
                          obtain ⟨hv, hr⟩ := h
                          subst hv
                          subst hr
                          refine ⟨['I', 'n', 'f', 'i', 'n', 'i', 't', 'y'], rfl, by simp,
                            rfl, rfl, ?_⟩
                          intro F' X hX hF
                          obtain ⟨G, rfl⟩ : ∃ G, F' = G + 1 := ⟨F' - 1, by omega⟩
                          rfl
                        next => exact Option.noConfusion h
                      · by_cases h9 : (ch == '-') = true
                        · have hch := beq_iff_eq.mp h9
                          subst hch
                          rw [pv_eval_minus_full] at h
                          split at h
                          next t₂ =>
                            simp only [Option.some.injEq, Prod.mk.injEq] at h
                            obtain ⟨hv, hr⟩ := h
                            subst hv
                            subst hr
                            refine ⟨['-', 'I', 'n', 'f', 'i', 'n', 'i', 't', 'y'], rfl,
                              by simp, rfl, rfl, ?_⟩
                            intro F' X hX hF
                            obtain ⟨G, rfl⟩ : ∃ G, F' = G + 1 := ⟨F' - 1, by omega⟩
                            rfl
                          next =>
                            cases hpn : parseNumber ('-' :: t) with
                            | none => rw [hpn] at h; exact Option.noConfusion h
                            | some p =>
                              obtain ⟨n, r₁⟩ := p
                              rw [hpn, Option.map_some'] at h
                              simp only [Option.some.injEq, Prod.mk.injEq] at h
                              obtain ⟨hv, hr⟩ := h
                              subst hv
                              subst hr
                              obtain ⟨cn, hdec, hcne, hchead, hpwh, hpwl, hmin, hnrerun⟩ :=
                                parseNumber_master ('-' :: t) n r₁ hpn
                              refine ⟨cn, hdec, hcne, hpwh, hpwl, ?_⟩
                              intro F' X hX hF
                              obtain ⟨G, rfl⟩ : ∃ G, F' = G + 1 := ⟨F' - 1, by omega⟩
                              cases cn with
                              | nil => exact absurd rfl hcne
                              | cons b u =>
                                have hb : b = '-' := by
                                  rw [List.cons_append] at hdec
                                  injection hdec with ha hbt
                                  exact ha.symm
                                subst hb
                                obtain ⟨hu_ne, hu_dig⟩ := hmin u rfl
                                have hInot : (u ++ X).headD ' ' ≠ 'I' := by
                                  cases u with
                                  | nil => exact absurd rfl hu_ne
                                  | cons u0 ur =>
                                    have hof := (digit_ne_starters u0
                                      (by simpa using hu_dig)).2.2.2.2.2.2.2.1
                                    intro hx
                                    rw [List.cons_append, List.headD_cons] at hx
                                    rw [hx] at hof
                                    simp at hof
                                rw [List.cons_append, pv_eval_minus_num G (u ++ X) hInot]
                                rw [← List.cons_append, hnrerun X hX]
                                rfl
                        · dsimp only [parseVal] at h
                          rw [if_neg h1, if_neg h2, if_neg h3, if_neg h4, if_neg h5,
                            if_neg h6, if_neg h7, if_neg h8, if_neg h9] at h
                          cases hpn : parseNumber (ch :: t) with
                          | none => rw [hpn] at h; exact Option.noConfusion h
                          | some p =>
                            obtain ⟨n, r₁⟩ := p
                            rw [hpn, Option.map_some'] at h
                            simp only [Option.some.injEq, Prod.mk.injEq] at h
                            obtain ⟨hv, hr⟩ := h
                            subst hv
                            subst hr
                            obtain ⟨cn, hdec, hcne, hchead, hpwh, hpwl, hmin, hnrerun⟩ :=
                              parseNumber_master (ch :: t) n r₁ hpn
                            have hdig : (cn.headD ' ').isDigit = true := by
                              rcases hchead with hh | hh
                              · exfalso
                                cases cn with
                                | nil => exact hcne rfl
                                | cons b u =>
                                  rw [List.cons_append] at hdec
                                  injection hdec with ha hbt
                                  simp only [List.headD_cons] at hh
                                  subst hh
                                  exact h9 (by rw [ha]; rfl)
                              · exact hh
                            refine ⟨cn, hdec, hcne, hpwh, hpwl, ?_⟩
                            intro F' X hX hF
                            obtain ⟨G, rfl⟩ : ∃ G, F' = G + 1 := ⟨F' - 1, by omega⟩
                            cases cn with
                            | nil => exact absurd rfl hcne
                            | cons b u =>
                              simp only [List.headD_cons] at hdig
                              rw [List.cons_append, pv_eval_digit G b (u ++ X) hdig]
                              rw [← List.cons_append, hnrerun X hX]
                              rfl
    · intro l kvs r h
      cases l with
      | nil =>
        rw [show parseMembers (F + 1) [] = none from rfl] at h
        exact Option.noConfusion h
      | cons q t =>
        by_cases hq : (q == '"') = true
        · have hq' := beq_iff_eq.mp hq
          subst hq'
          rw [pm_eval_quote] at h
          cases hsb : parseStringBody (t.length + 1) t with
          | none => rw [hsb] at h; exact Option.noConfusion h
          | some p =>
            obtain ⟨k, r₁⟩ := p
            rw [hsb] at h
            dsimp only at h
            obtain ⟨ck, hkdec, hkne, hklast, hkrerun⟩ := SB_master (t.length + 1) t k r₁ hsb
            cases hsw₂ : skipWs r₁ with
            | nil => rw [hsw₂] at h; exact Option.noConfusion h
            | cons co r₂ =>
              rw [hsw₂] at h
              dsimp only at h
              have hsplit₂ : r₁.takeWhile isJsonWsB ++ skipWs r₁ = r₁ := by
                unfold skipWs
                simp [List.takeWhile_append_dropWhile]
              by_cases hco : (co == ':') = true
              · rw [if_pos hco] at h
                have hco' := beq_iff_eq.mp hco
                subst hco'
                cases hpv : parseVal F (skipWs r₂) with
                | none => rw [hpv] at h; exact Option.noConfusion h
                | some p₂ =>
                  obtain ⟨v, r₃⟩ := p₂
                  rw [hpv] at h
                  dsimp only at h
                  obtain ⟨cv, hvdec, hvne, hvhead, hvlast, hvrerun⟩ := ihv (skipWs r₂) v r₃ hpv
                  have hsplit₃ : r₂.takeWhile isJsonWsB ++ skipWs r₂ = r₂ := by
                    unfold skipWs
                    simp [List.takeWhile_append_dropWhile]
                  cases hsw₄ : skipWs r₃ with
                  | nil => rw [hsw₄] at h; exact Option.noConfusion h
                  | cons sep r₄ =>
                    rw [hsw₄] at h
                    dsimp only at h
                    have hsplit₄ : r₃.takeWhile isJsonWsB ++ skipWs r₃ = r₃ := by
                      unfold skipWs
                      simp [List.takeWhile_append_dropWhile]
                    by_cases hsep : (sep == ',') = true
                    · rw [if_pos hsep] at h
                      have hsep' := beq_iff_eq.mp hsep
                      subst hsep'
                      cases hpm₂ : parseMembers F (skipWs r₄) with
                      | none => rw [hpm₂] at h; exact Option.noConfusion h
                      | some p₃ =>
                        obtain ⟨kvs₂, r₅⟩ := p₃
                        rw [hpm₂, Option.map_some'] at h
                        simp only [Option.some.injEq, Prod.mk.injEq] at h
                        obtain ⟨hkv, hr⟩ := h
                        subst hkv
                        subst hr
                        obtain ⟨cm, hmdec, hmne, hmhead, hmlast, hmrerun⟩ :=
                          ihm (skipWs r₄) kvs₂ r₅ hpm₂
                        have hsplit₅ : r₄.takeWhile isJsonWsB ++ skipWs r₄ = r₄ := by
                          unfold skipWs
                          simp [List.takeWhile_append_dropWhile]
                        refine ⟨'"' :: (ck ++ (r₁.takeWhile isJsonWsB ++ (':' ::
                          (r₂.takeWhile isJsonWsB ++ (cv ++ (r₃.takeWhile isJsonWsB ++ (',' ::
                          (r₄.takeWhile isJsonWsB ++ cm)))))))), ?_, by simp, rfl, ?_, ?_⟩
                        · simp only [List.cons_append, List.append_assoc]
                          rw [← hmdec, hsplit₅, ← hsw₄, hsplit₄, ← hvdec, hsplit₃, ← hsw₂,
                            hsplit₂, ← hkdec]
                        · cases cm with
                          | nil => exact absurd rfl hmne
                          | cons m0 mr =>
                            rw [List.getLastD_cons,
                              getLastD_append_right _ _ _ (append_ne_nil_right _ _
                                (List.cons_ne_nil _ _)),
                              getLastD_append_right _ _ _ (List.cons_ne_nil _ _),
                              List.getLastD_cons,
                              getLastD_append_right _ _ _ (append_ne_nil_left _ _ hvne),
                              getLastD_append_right _ _ _ (append_ne_nil_right _ _
                                (List.cons_ne_nil _ _)),
                              getLastD_append_right _ _ _ (List.cons_ne_nil _ _),
                              List.getLastD_cons,
                              getLastD_append_right _ _ _ (List.cons_ne_nil _ _),
                              getLastD_default_irrel m0 mr ',' ' ']
                            exact hmlast
                        · intro F' X hX hF
                          obtain ⟨G, rfl⟩ : ∃ G, F' = G + 1 := ⟨F' - 1, by omega⟩
                          rw [List.cons_append, pm_eval_quote]
                          simp only [List.append_assoc, List.cons_append]
                          have hsb_any : ∀ T : List Char,
                              parseStringBody ((ck ++ T).length + 1) (ck ++ T) = some (k, T) :=
                            fun T => hkrerun ((ck ++ T).length + 1) T
                              (by simp only [List.length_append]; omega)
                          rw [hsb_any]
                          dsimp only
                          rw [skipWs_all_append (r₁.takeWhile isJsonWsB) (':' :: _)
                            (all_takeWhile _ _) (Or.inr rfl)]
                          dsimp only
                          rw [if_pos (by rfl)]
                          rw [skipWs_all_append (r₂.takeWhile isJsonWsB)
                            (cv ++ (r₃.takeWhile isJsonWsB ++ (',' ::
                              (r₄.takeWhile isJsonWsB ++ (cm ++ X)))))
                            (all_takeWhile _ _)
                            (Or.inr (by
                              rw [headD_append_left _ _ _ hvne]
                              exact not_pyws_not_jsonws _ hvhead))]
                          have hgt : GoodTail (r₃.takeWhile isJsonWsB ++ (',' ::
                              (r₄.takeWhile isJsonWsB ++ (cm ++ X)))) :=
                            goodTail_append_ws _ _ (all_takeWhile _ _)
                              (goodTail_of_head ',' _ (by decide))
                          have hfuv : 2 * cv.length + 1 ≤ G := by
                            simp only [List.length_cons, List.length_append] at hF
                            omega
                          rw [hvrerun G _ hgt hfuv]
                          dsimp only
                          rw [skipWs_all_append (r₃.takeWhile isJsonWsB) (',' :: _)
                            (all_takeWhile _ _) (Or.inr rfl)]
                          dsimp only
                          rw [if_pos (by rfl)]
                          rw [skipWs_all_append (r₄.takeWhile isJsonWsB) (cm ++ X)
                            (all_takeWhile _ _)
                            (Or.inr (by
                              rw [headD_append_left _ _ _ hmne]
                              exact not_pyws_not_jsonws _ hmhead))]
                          rw [hmrerun G X hX (by
                            simp only [List.length_cons, List.length_append] at hF
                            omega)]
                          rfl
                    · rw [if_neg hsep] at h
                      by_cases hsep₂ : (sep == rbraceC) = true
                      · rw [if_pos hsep₂] at h
                        have hsep' := beq_iff_eq.mp hsep₂
                        subst hsep'
                        simp only [Option.some.injEq, Prod.mk.injEq] at h
                        obtain ⟨hkv, hr⟩ := h
                        subst hkv
                        subst hr
                        refine ⟨'"' :: (ck ++ (r₁.takeWhile isJsonWsB ++ (':' ::
                          (r₂.takeWhile isJsonWsB ++ (cv ++ (r₃.takeWhile isJsonWsB ++
                          ([rbraceC] : List Char))))))), ?_, by simp, rfl, ?_, ?_⟩
                        · simp only [List.cons_append, List.append_assoc, List.singleton_append,
                            List.nil_append]
                          rw [← hsw₄, hsplit₄, ← hvdec, hsplit₃, ← hsw₂, hsplit₂, ← hkdec]
                        · rw [List.getLastD_cons,
                            getLastD_append_right _ _ _ (append_ne_nil_right _ _
                              (List.cons_ne_nil _ _)),
                            getLastD_append_right _ _ _ (List.cons_ne_nil _ _),
                            List.getLastD_cons,
                            getLastD_append_right _ _ _ (append_ne_nil_left _ _ hvne),
                            getLastD_append_right _ _ _ (append_ne_nil_right _ _
                              (List.cons_ne_nil _ _)),
                            getLastD_append_right _ _ _ (List.cons_ne_nil _ _)]
                          rfl
                        · intro F' X hX hF
                          obtain ⟨G, rfl⟩ : ∃ G, F' = G + 1 := ⟨F' - 1, by omega⟩
                          rw [List.cons_append, pm_eval_quote]
                          simp only [List.append_assoc, List.cons_append, List.singleton_append,
                            List.nil_append]
                          have hsb_any : ∀ T : List Char,
                              parseStringBody ((ck ++ T).length + 1) (ck ++ T) = some (k, T) :=
                            fun T => hkrerun ((ck ++ T).length + 1) T
                              (by simp only [List.length_append]; omega)
                          rw [hsb_any]
                          dsimp only
                          rw [skipWs_all_append (r₁.takeWhile isJsonWsB) (':' :: _)
                            (all_takeWhile _ _) (Or.inr rfl)]
                          dsimp only
                          rw [if_pos (by rfl)]
                          rw [skipWs_all_append (r₂.takeWhile isJsonWsB)
                            (cv ++ (r₃.takeWhile isJsonWsB ++ (rbraceC :: X)))
                            (all_takeWhile _ _)
                            (Or.inr (by
                              rw [headD_append_left _ _ _ hvne]
                              exact not_pyws_not_jsonws _ hvhead))]
                          have hgt : GoodTail (r₃.takeWhile isJsonWsB ++ (rbraceC :: X)) :=
                            goodTail_append_ws _ _ (all_takeWhile _ _)
                              (goodTail_of_head rbraceC _ (by decide))
                          have hfuv : 2 * cv.length + 1 ≤ G := by
                            simp only [List.length_cons, List.length_append, List.length_nil] at hF
                            omega
                          rw [hvrerun G _ hgt hfuv]
                          dsimp only
                          rw [skipWs_all_append (r₃.takeWhile isJsonWsB) (rbraceC :: X)
                            (all_takeWhile _ _) (Or.inr rfl)]
                          dsimp only
                          rw [if_neg (by decide), if_pos (by rfl)]
                      · rw [if_neg hsep₂] at h
                        exact Option.noConfusion h
              · rw [if_neg hco] at h
                exact Option.noConfusion h
        · have hnone : parseMembers (F + 1) (q :: t) = none := by
            dsimp only [parseMembers]
            rw [if_neg hq]
          rw [hnone] at h
          exact Option.noConfusion h
    · intro l vs r h
      rw [pe_eval] at h
      cases hpv : parseVal F l with
      | none => rw [hpv] at h; exact Option.noConfusion h
      | some p =>
        obtain ⟨v, r₁⟩ := p
        rw [hpv] at h
        dsimp only at h
        obtain ⟨cv, hvdec, hvne, hvhead, hvlast, hvrerun⟩ := ihv l v r₁ hpv
        cases hsw₂ : skipWs r₁ with
        | nil => rw [hsw₂] at h; exact Option.noConfusion h
        | cons sep r₂ =>
          rw [hsw₂] at h
          dsimp only at h
          have hsplit₂ : r₁.takeWhile isJsonWsB ++ skipWs r₁ = r₁ := by
            unfold skipWs
            simp [List.takeWhile_append_dropWhile]
          by_cases hsep : (sep == ',') = true
          · rw [if_pos hsep] at h
            have hsep' := beq_iff_eq.mp hsep
            subst hsep'
            cases hpe₂ : parseElems F (skipWs r₂) with
            | none => rw [hpe₂] at h; exact Option.noConfusion h
            | some q =>
              obtain ⟨vs₂, r₃⟩ := q
              rw [hpe₂, Option.map_some'] at h
              simp only [Option.some.injEq, Prod.mk.injEq] at h
              obtain ⟨hvs, hr⟩ := h
              subst hvs
              subst hr
              obtain ⟨ce, hedec, hene, hehead, helast, hererun⟩ := ihe (skipWs r₂) vs₂ r₃ hpe₂
              have hsplit₃ : r₂.takeWhile isJsonWsB ++ skipWs r₂ = r₂ := by
                unfold skipWs
                simp [List.takeWhile_append_dropWhile]
              refine ⟨cv ++ (r₁.takeWhile isJsonWsB ++ (',' :: (r₂.takeWhile isJsonWsB ++ ce))),
                ?_, append_ne_nil_left _ _ hvne, ?_, ?_, ?_⟩
              · simp only [List.append_assoc, List.cons_append]
                rw [← hedec, hsplit₃, ← hsw₂, hsplit₂, ← hvdec]
              · rw [headD_append_left _ _ _ hvne]
                exact hvhead
              · cases ce with
                | nil => exact absurd rfl hene
                | cons e0 er =>
                  rw [getLastD_append_right cv
                      (r₁.takeWhile isJsonWsB ++ (',' :: (r₂.takeWhile isJsonWsB ++ (e0 :: er))))
                      ' ' (append_ne_nil_right _ _ (by simp)),
                    getLastD_append_right (r₁.takeWhile isJsonWsB)
                      (',' :: (r₂.takeWhile isJsonWsB ++ (e0 :: er))) ' ' (by simp),
                    List.getLastD_cons,
                    getLastD_append_right (r₂.takeWhile isJsonWsB) (e0 :: er) ',' (by simp),
                    getLastD_default_irrel e0 er ',' ' ']
                  exact helast
              · intro F' X hX hF
                obtain ⟨G, rfl⟩ : ∃ G, F' = G + 1 := ⟨F' - 1, by omega⟩
                rw [pe_eval]
                simp only [List.append_assoc, List.cons_append]
                have hgt : GoodTail (r₁.takeWhile isJsonWsB ++
                    (',' :: (r₂.takeWhile isJsonWsB ++ (ce ++ X)))) :=
                  goodTail_append_ws _ _ (all_takeWhile _ _) (goodTail_of_head ',' _ (by decide))
                have hfu : 2 * cv.length + 1 ≤ G := by
                  simp only [List.length_append, List.length_cons, List.length_nil] at hF
                  omega
                rw [hvrerun G (r₁.takeWhile isJsonWsB ++
                    (',' :: (r₂.takeWhile isJsonWsB ++ (ce ++ X)))) hgt hfu]
                dsimp only
                rw [skipWs_all_append (r₁.takeWhile isJsonWsB)
                  (',' :: (r₂.takeWhile isJsonWsB ++ (ce ++ X))) (all_takeWhile _ _) (Or.inr rfl)]
                dsimp only
                rw [if_pos (by rfl)]
                have hceX : ce ++ X = [] ∨ isJsonWsB ((ce ++ X).headD ' ') = false :=
                  Or.inr (by rw [headD_append_left _ _ _ hene]; exact not_pyws_not_jsonws _ hehead)
                rw [skipWs_all_append _ _ (all_takeWhile _ _) hceX]
                rw [hererun G X hX (by
                  simp only [List.length_append, List.length_cons, List.length_nil] at hF
                  omega)]
                rfl
          · rw [if_neg hsep] at h
            by_cases hsep₂ : (sep == ']') = true
            · rw [if_pos hsep₂] at h
              have hsep' := beq_iff_eq.mp hsep₂
              subst hsep'
              simp only [Option.some.injEq, Prod.mk.injEq] at h
              obtain ⟨hvs, hr⟩ := h
              subst hvs
              subst hr
              refine ⟨cv ++ (r₁.takeWhile isJsonWsB ++ ([']'] : List Char)), ?_,
                append_ne_nil_left _ _ hvne, ?_, ?_, ?_⟩
              · simp only [List.append_assoc, List.singleton_append]
                rw [← hsw₂, hsplit₂, ← hvdec]
              · rw [headD_append_left _ _ _ hvne]
                exact hvhead
              · rw [getLastD_append_right cv (r₁.takeWhile isJsonWsB ++ ([']'] : List Char)) ' '
                    (append_ne_nil_right _ _ (by simp)),
                  getLastD_append_right (r₁.takeWhile isJsonWsB) ([']'] : List Char) ' ' (by simp)]
                rfl
              · intro F' X hX hF
                obtain ⟨G, rfl⟩ : ∃ G, F' = G + 1 := ⟨F' - 1, by omega⟩
                rw [pe_eval]
                simp only [List.append_assoc, List.singleton_append, List.cons_append,
                  List.nil_append]
                have hgt : GoodTail (r₁.takeWhile isJsonWsB ++ (']' :: X)) :=
                  goodTail_append_ws _ _ (all_takeWhile _ _) (goodTail_of_head ']' _ (by decide))
                have hfu : 2 * cv.length + 1 ≤ G := by
                  simp only [List.length_append, List.length_cons, List.length_nil] at hF
                  omega
                rw [hvrerun G (r₁.takeWhile isJsonWsB ++ (']' :: X)) hgt hfu]
                dsimp only
                rw [skipWs_all_append (r₁.takeWhile isJsonWsB) (']' :: X)
                  (all_takeWhile _ _) (Or.inr rfl)]
                dsimp only
                rw [if_neg (by decide), if_pos (by rfl)]
            · rw [if_neg hsep₂] at h
              exact Option.noConfusion h

theorem all_imp (p q : Char → Bool) (l : List Char) (h : l.all p = true)
    (himp : ∀ c, p c = true → q c = true) : l.all q = true := by
  simp only [List.all_eq_true] at h ⊢
  exact fun x hx => himp x (h x hx)

theorem pyStripList_exact (w₁ c w₂ : List Char)
    (hw₁ : w₁.all isPyWsB = true) (hw₂ : w₂.all isPyWsB = true)
    (hcne : c ≠ []) (hchead : isPyWsB (c.headD ' ') = false)
    (hclast : isPyWsB (c.getLastD ' ') = false) :
    pyStripList (w₁ ++ (c ++ w₂)) = c := by
  unfold pyStripList
  rw [dropWhile_all_append _ _ _ hw₁]
  cases c with
  | nil => exact absurd rfl hcne
  | cons c0 ct =>
    rw [List.cons_append, dropWhile_cons_false _ _ _ (by simpa using hchead)]
    rw [show c0 :: (ct ++ w₂) = (c0 :: ct) ++ w₂ from rfl]
    rw [List.reverse_append]
    rw [dropWhile_all_append _ _ _ (by simpa only [List.all_reverse] using hw₂)]
    have hrev_ne : (c0 :: ct).reverse ≠ [] := by simp
    cases hrc : (c0 :: ct).reverse with
    | nil => exact absurd hrc hrev_ne
    | cons b bs =>
      have hb2 : isPyWsB b = false := by
        have hh1 : (c0 :: ct).reverse.head? = some b := by rw [hrc]; rfl
        have hh2 : (c0 :: ct).getLast? = some b := by rw [← List.head?_reverse, hh1]
        have hh3 : (c0 :: ct).getLastD ' ' = b := by
          rw [List.getLastD_eq_getLast?, hh2]
          rfl
        rw [← hh3]
        exact hclast
      rw [dropWhile_cons_false _ _ _ hb2]
      rw [← hrc, List.reverse_reverse]

theorem json_loads_strip (s : String) (v : JVal) (h : json_loads s = some v) :
    json_loads (pyStrip s) = some v := by
  unfold json_loads at h
  dsimp only at h
  cases hpv : parseVal (2 * (skipWs s.toList).length + 2) (skipWs s.toList) with
  | none => rw [hpv] at h; exact Option.noConfusion h
  | some p =>
    obtain ⟨v₀, r⟩ := p
    rw [hpv] at h
    dsimp only at h
    by_cases hemp : (skipWs r).isEmpty = true
    · rw [if_pos hemp] at h
      simp only [Option.some.injEq] at h
      subst h
      obtain ⟨c, hdec, hcne, hchead, hclast, hrerun⟩ :=
        (parse_master (2 * (skipWs s.toList).length + 2)).1 (skipWs s.toList) v₀ r hpv
      have hnil : r.dropWhile isJsonWsB = [] := by
        cases hr2 : skipWs r with
        | nil => exact hr2
        | cons a b =>
          rw [hr2] at hemp
          exact Bool.noConfusion hemp
      have hrall : r.all isJsonWsB = true := by
        simp only [List.all_eq_true]
        exact List.dropWhile_eq_nil_iff.mp hnil
      have h0 : s.toList.takeWhile isJsonWsB ++ skipWs s.toList = s.toList := by
        unfold skipWs
        simp [List.takeWhile_append_dropWhile]
      have hsl : s.toList = s.toList.takeWhile isJsonWsB ++ (c ++ r) := by
        rw [← hdec, h0]
      have hstrip : pyStripList s.toList = c := by
        rw [hsl]
        exact pyStripList_exact _ _ _
          (all_imp _ _ _ (all_takeWhile _ _) jsonWs_pyWs)
          (all_imp _ _ _ hrall jsonWs_pyWs) hcne hchead hclast
      unfold pyStrip json_loads
      dsimp only
      rw [show (String.mk (pyStripList s.toList)).toList = pyStripList s.toList from rfl]
      rw [hstrip]
      have hskc : skipWs c = c :=
        skipWs_head_false c (Or.inr (not_pyws_not_jsonws _ hchead))
      rw [hskc]
      have hre : parseVal (2 * c.length + 2) c = some (v₀, []) := by
        have hx := hrerun (2 * c.length + 2) [] (Or.inl rfl) (by omega)
        rwa [List.append_nil] at hx
      rw [hre]
      rfl
    · rw [if_neg hemp] at h
      exact Option.noConfusion h

/-- C7: for every string that already parses directly as a JSON object, the
extraction function returns exactly the direct parse: stripping cannot
change the parse (json.loads itself ignores surrounding whitespace), so the
stage-one parse succeeds with the same value and no fallback stage runs. -/
theorem C7_extraccion_igual_parse_directo (s : String) (kvs : List (String × JVal))
    (h : json_loads s = some (JVal.obj kvs)) :
    extraer_json_de_respuesta s = json_loads s := by
  rw [h]
  unfold extraer_json_de_respuesta
  dsimp only
  rw [show etapa1 (pyStrip s) = json_loads (pyStrip s) from rfl]
  rw [json_loads_strip s (JVal.obj kvs) h]

/-- Witness for C7 at a concrete JSON object string. -/
theorem C7_extraccion_igual_parse_directo_testigo :
    json_loads "\x7b\"a\": 1\x7d" = some (JVal.obj [("a", JVal.num (PyNum.int 1))]) ∧
    extraer_json_de_respuesta "\x7b\"a\": 1\x7d" = json_loads "\x7b\"a\": 1\x7d" :=
  ⟨rfl, C7_extraccion_igual_parse_directo "\x7b\"a\": 1\x7d"
    [("a", JVal.num (PyNum.int 1))] rfl⟩

set_option maxRecDepth 100000 in
/-- C2 counterexample: the two provider pipelines do not share the three-stage
extraction strategy.  On the same raw provider text — a valid JSON object
wrapped in prose — the Cerebras pipeline recovers the object through the
fallback stages, while the Gemini pipeline, which parses its raw text with a
single direct json.loads and no fallback, returns the not-valid-JSON error. -/
theorem C2_contraejemplo_extraccion :
    esError (analizar_viabilidad "cerebras" (fun _ => some "clave") (fun _ => some "clave")
      (fun _ => some "x \x7b\"a\": 1\x7d y") (PyIn.str "un problema de negocio")).1 = false ∧
    esError (analizar_viabilidad "gemini" (fun _ => some "clave") (fun _ => some "clave")
      (fun _ => some "x \x7b\"a\": 1\x7d y") (PyIn.str "un problema de negocio")).1 = true := by
  decide

/-- C2 amended: the agreement between the two provider pipelines holds exactly
on raw texts that already parse directly as JSON.  When the raw text parses
(and the credentials, prompt and response pass their guards), both pipelines
return the same successfully extracted value: Gemini by its single direct
parse, Cerebras by stage one of its extraction. -/
theorem C2_canal_comun_enmendada (ent : Entorno) (red : String → Option String)
    (entrada : PyIn) (raw : String) (v : JVal) (prompt : String)
    (hk₁ : truthyOpt (cerebras_api_key ent) = true)
    (hk₂ : truthyOpt (pyOr (ent "GEMINI_API_KEY") (ent "GOOGLE_API_KEY")) = true)
    (hp : disenar_prompt_robusto entrada = some prompt)
    (hps : (pyStrip prompt == "") = false)
    (hred : red prompt = some raw)
    (hraw : (pyStrip raw == "") = false)
    (hjson : json_loads raw = some v) :
    analizar_viabilidad "gemini" ent ent red entrada = (Resultado.ok v, true) ∧
    analizar_viabilidad "cerebras" ent ent red entrada = (Resultado.ok v, true) := by
  constructor
  · unfold analizar_viabilidad
    rw [if_pos (by rfl)]
    unfold analizar_viabilidad_con_gemini
    dsimp only
    rw [if_neg (by rw [hk₂]; simp)]
    rw [hp]
    dsimp only
    rw [if_neg (by rw [hps]; simp)]
    rw [hred]
    dsimp only
    rw [if_neg (by rw [hraw]; simp)]
    rw [hjson]
  · have hext : extraer_json_de_respuesta raw = some v := by
      unfold extraer_json_de_respuesta
      dsimp only
      rw [show etapa1 (pyStrip raw) = json_loads (pyStrip raw) from rfl]
      rw [json_loads_strip raw v hjson]
    unfold analizar_viabilidad
    rw [if_neg (by decide), if_pos (by rfl)]
    unfold analizar_viabilidad_con_cerebras
    rw [if_neg (by rw [hk₁]; simp)]
    rw [hp]
    dsimp only
    rw [if_neg (by rw [hps]; simp)]
    rw [hred]
    dsimp only
    rw [if_neg (by rw [hraw]; simp)]
    rw [hext]

set_option maxRecDepth 100000 in
/-- Witness for the amended C2 at a concrete environment, network and raw
JSON-object response: both pipelines return the same extracted object. -/
theorem C2_canal_comun_enmendada_testigo :
    analizar_viabilidad "gemini" (fun _ => some "clave") (fun _ => some "clave")
      (fun _ => some "\x7b\"ok\": true\x7d") (PyIn.str "un problema de negocio") =
      (Resultado.ok (JVal.obj [("ok", JVal.bool true)]), true) ∧
    analizar_viabilidad "cerebras" (fun _ => some "clave") (fun _ => some "clave")
      (fun _ => some "\x7b\"ok\": true\x7d") (PyIn.str "un problema de negocio") =
      (Resultado.ok (JVal.obj [("ok", JVal.bool true)]), true) :=
  C2_canal_comun_enmendada (fun _ => some "clave")
    (fun _ => some "\x7b\"ok\": true\x7d") (PyIn.str "un problema de negocio")
    "\x7b\"ok\": true\x7d" (JVal.obj [("ok", JVal.bool true)])
    (promptOf "un problema de negocio")
    rfl rfl rfl (by decide) rfl (by decide) rfl
